import Mathlib

/-!
Verification of the pertype runtime schema/validation/codec library.

The development shallowly embeds the schema core (schema.ts) together with its
error model (error.ts), immutable builder (builder.ts) and path utility
(util/path.ts).  JavaScript runtime values are modelled by the inductive type
`JSValue`; JavaScript numbers are modelled exactly as rationals extended with
NaN and the two infinities (float rounding and negative zero are not observable
in any property proved here).  Host-language primitives used by the library
(`Number`, `String`, `JSON.parse`, `JSON.stringify`, `new Date(string)`) are
given executable models that follow the ECMAScript conversions on the value
forms the library exercises.
-/

namespace Pertype

/-- A JavaScript number: NaN, the infinities, or an exact finite value. -/
inductive JSNum where
  | nan
  | posInf
  | negInf
  | val (q : ℚ)
deriving DecidableEq

/-- A JavaScript runtime value, as far as the schema library can observe it:
primitives, symbols (identified by their description in this model), `Date`
instances (carrying their time value), arrays, plain objects, `Map` and `Set`
instances. -/
inductive JSValue where
  | vUndefined
  | vNull
  | vBool (b : Bool)
  | vNum (n : JSNum)
  | vStr (s : String)
  | vBigInt (i : ℤ)
  | vSym (description : Option String)
  | vDate (time : JSNum)
  | vArr (elems : List JSValue)
  | vObj (fields : List (String × JSValue))
  | vMap (entries : List (JSValue × JSValue))
  | vSet (elems : List JSValue)

open JSValue JSNum

/-- `typeof value === 'number'`. -/
def isNumberV : JSValue → Bool
  | vNum _ => true
  | _ => false

/-- `typeof value === 'string'`. -/
def isStringV : JSValue → Bool
  | vStr _ => true
  | _ => false

/-- `typeof value === 'boolean'`. -/
def isBooleanV : JSValue → Bool
  | vBool _ => true
  | _ => false

/-- `typeof value === 'bigint'`. -/
def isBigIntV : JSValue → Bool
  | vBigInt _ => true
  | _ => false

/-- `typeof value === 'symbol'`. -/
def isSymbolV : JSValue → Bool
  | vSym _ => true
  | _ => false

/-- `value instanceof Date`. -/
def isDateV : JSValue → Bool
  | vDate _ => true
  | _ => false

/-- `Array.isArray(value)`. -/
def isArrayV : JSValue → Bool
  | vArr _ => true
  | _ => false

/-- `value instanceof Map`. -/
def isMapV : JSValue → Bool
  | vMap _ => true
  | _ => false

/-- `value instanceof Set`. -/
def isSetV : JSValue → Bool
  | vSet _ => true
  | _ => false

/-- `typeof value === 'object'` — true for `null`, arrays, plain objects,
`Map`, `Set` and `Date` instances. -/
def typeofObject : JSValue → Bool
  | vNull => true
  | vArr _ => true
  | vObj _ => true
  | vMap _ => true
  | vSet _ => true
  | vDate _ => true
  | _ => false

/-- The `typeof` operator's result string. -/
def typeofString : JSValue → String
  | vUndefined => "undefined"
  | vBool _ => "boolean"
  | vNum _ => "number"
  | vStr _ => "string"
  | vBigInt _ => "bigint"
  | vSym _ => "symbol"
  | _ => "object"

/-- JavaScript truthiness: everything is truthy except `false`, `0`, `-0`,
`NaN`, the empty string, `null`, `undefined` and `0n`. -/
def truthy : JSValue → Bool
  | vUndefined => false
  | vNull => false
  | vBool b => b
  | vNum nan => false
  | vNum (val q) => !(q = 0 : Bool)
  | vNum _ => true
  | vStr s => !(s = "" : Bool)
  | vBigInt i => !(i = 0 : Bool)
  | _ => true

/-! ### Number/string conversions (models of the ECMAScript host operations) -/

/-- Decimal value of a digit list (most significant first). -/
def digitsToNat (ds : List Char) : ℕ :=
  ds.foldl (fun a c => a * 10 + (c.toNat - 48)) 0

/-- Split a leading run of decimal digits off a character list. -/
def takeDigitsL : List Char → List Char × List Char
  | c :: cs =>
      if c.isDigit then
        let (d, r) := takeDigitsL cs
        (c :: d, r)
      else ([], c :: cs)
  | [] => ([], [])

/-- Value of a digit in radix `b` (supports up to hexadecimal). -/
def radixDigitVal (c : Char) : Option ℕ :=
  if c.isDigit then some (c.toNat - 48)
  else if 'a' ≤ c ∧ c ≤ 'f' then some (c.toNat - 87)
  else if 'A' ≤ c ∧ c ≤ 'F' then some (c.toNat - 55)
  else none

/-- Whether `c` is a digit of radix `b`. -/
def isRadixDigit (b : ℕ) (c : Char) : Bool :=
  match radixDigitVal c with
  | some v => v < b
  | none => false

/-- Value of a digit list in radix `b`. -/
def radixToNat (b : ℕ) (ds : List Char) : ℕ :=
  ds.foldl (fun a c => a * b + (radixDigitVal c).getD 0) 0

/-- Fractional decimal digits of `r / den`, up to `fuel` digits (JavaScript
prints the shortest round-tripping decimal; this model prints the exact
expansion truncated at `fuel` digits, which coincides on every value the
library's claims exercise). -/
def ratFracDigits (den : ℕ) : ℕ → ℕ → String
  | _, 0 => ""
  | r, fuel + 1 =>
      if r = 0 then ""
      else
        let r10 := r * 10
        toString (r10 / den) ++ ratFracDigits den (r10 % den) fuel

/-- Model of JavaScript number-to-string conversion. -/
def numToString : JSNum → String
  | nan => "NaN"
  | posInf => "Infinity"
  | negInf => "-Infinity"
  | val q =>
      if q.den = 1 then toString q.num
      else
        let sgn := if q < 0 then "-" else ""
        let n := q.num.natAbs
        sgn ++ toString (n / q.den) ++ "." ++ ratFracDigits q.den (n % q.den) 20

/-- Negate a JavaScript number. -/
def negNum : JSNum → JSNum
  | nan => nan
  | posInf => negInf
  | negInf => posInf
  | val q => val (-q)

/-- Parse an unsigned decimal numeric literal (`Infinity`, or digits with an
optional fraction and exponent); `NaN` on anything else. -/
def parseUnsignedDec (cs : List Char) : JSNum :=
  if cs = "Infinity".toList then posInf
  else
    let (ip, r1) := takeDigitsL cs
    let (fp, rest) :=
      match r1 with
      | '.' :: r => takeDigitsL r
      | _ => ([], r1)
    if ip = [] ∧ fp = [] then nan
    else
      let mant : ℚ := (digitsToNat ip : ℚ) + (digitsToNat fp : ℚ) / ((10 : ℚ) ^ fp.length)
      match rest with
      | [] => val mant
      | e :: r2 =>
          if e = 'e' ∨ e = 'E' then
            let (esgn, r3) : ℤ × List Char :=
              match r2 with
              | '+' :: t => (1, t)
              | '-' :: t => (-1, t)
              | t => (1, t)
            let (eds, r4) := takeDigitsL r3
            if eds = [] ∨ r4 ≠ [] then nan
            else val (mant * (10 : ℚ) ^ (esgn * (digitsToNat eds : ℤ)))
          else nan

/-- Parse a signed decimal numeric literal. -/
def parseSignedDec : List Char → JSNum
  | '+' :: rest => parseUnsignedDec rest
  | '-' :: rest => negNum (parseUnsignedDec rest)
  | cs => parseUnsignedDec cs

/-- Model of the ECMAScript StringToNumber conversion (`Number(string)`):
trim, empty string is `0`, radix-prefixed integer literals, otherwise a signed
decimal literal; anything else is `NaN`. -/
def strToNumber (s : String) : JSNum :=
  let cs := s.trim.toList
  match cs with
  | [] => val 0
  | '0' :: x :: rest =>
      if x = 'x' ∨ x = 'X' then
        if rest ≠ [] ∧ rest.all (isRadixDigit 16) then val (radixToNat 16 rest) else nan
      else if x = 'o' ∨ x = 'O' then
        if rest ≠ [] ∧ rest.all (isRadixDigit 8) then val (radixToNat 8 rest) else nan
      else if x = 'b' ∨ x = 'B' then
        if rest ≠ [] ∧ rest.all (isRadixDigit 2) then val (radixToNat 2 rest) else nan
      else parseSignedDec cs
  | _ => parseSignedDec cs

/-- Model of `Date.prototype.toString`: "Invalid Date" for a `NaN` time value,
otherwise a host-formatted string (opaque to the library; rendered here from
the time value, which no proved property inspects). -/
def dateToString (t : JSNum) : String :=
  match t with
  | nan => "Invalid Date"
  | t => "[Date " ++ numToString t ++ "]"

mutual

/-- Model of JavaScript string conversion `String(value)` (`ToString` with the
`String()` special case that accepts symbols). -/
def jsToString : JSValue → String
  | vUndefined => "undefined"
  | vNull => "null"
  | vBool b => cond b "true" "false"
  | vNum n => numToString n
  | vStr s => s
  | vBigInt i => toString i
  | vSym d => "Symbol(" ++ d.getD "" ++ ")"
  | vDate t => dateToString t
  | vArr xs => String.intercalate "," (arrToStrings xs)
  | vObj _ => "[object Object]"
  | vMap _ => "[object Map]"
  | vSet _ => "[object Set]"

/-- Stringify every array element; `Array.prototype.toString` renders
`null`/`undefined` elements as empty. -/
def arrToStrings : List JSValue → List String
  | [] => []
  | x :: xs =>
      (match x with
        | vNull => ""
        | vUndefined => ""
        | _ => jsToString x) :: arrToStrings xs

end

/-- Model of the ECMAScript `ToNumber` conversion (`Number(value)`); `none`
models the `TypeError` thrown on symbols.  Arrays and plain objects convert
via `ToPrimitive` (their string form), a `Date` via its time value. -/
def toNumber : JSValue → Option JSNum
  | vNum n => some n
  | vUndefined => some nan
  | vNull => some (val 0)
  | vBool b => some (val (cond b 1 0))
  | vStr s => some (strToNumber s)
  | vBigInt i => some (val (i : ℚ))
  | vSym _ => none
  | vDate t => some t
  | v => some (strToNumber (jsToString v))

/-- Model of `BigInt(string)`: trimmed empty string is `0n`; a signed decimal
or radix-prefixed integer literal; `none` models the thrown `SyntaxError`. -/
def strToBigInt (s : String) : Option ℤ :=
  let decDigits : List Char → Option ℤ := fun ds =>
    if ds ≠ [] ∧ ds.all Char.isDigit then some (digitsToNat ds : ℤ) else none
  let cs := s.trim.toList
  match cs with
  | [] => some 0
  | '+' :: ds => decDigits ds
  | '-' :: ds => (decDigits ds).map (fun n => -n)
  | '0' :: x :: rest =>
      if x = 'x' ∨ x = 'X' then
        if rest ≠ [] ∧ rest.all (isRadixDigit 16) then some (radixToNat 16 rest : ℤ) else none
      else if x = 'o' ∨ x = 'O' then
        if rest ≠ [] ∧ rest.all (isRadixDigit 8) then some (radixToNat 8 rest : ℤ) else none
      else if x = 'b' ∨ x = 'B' then
        if rest ≠ [] ∧ rest.all (isRadixDigit 2) then some (radixToNat 2 rest : ℤ) else none
      else decDigits cs
  | _ => decDigits cs

/-- Model of `BigInt(number)`: exact integers convert, everything else throws
`RangeError` (modelled as `none`). -/
def bigIntFromNum : JSNum → Option ℤ
  | val q => if q.den = 1 then some q.num else none
  | _ => none

mutual

/-- SameValueZero, used by `Map` keys and `Set` elements.  In this model
symbols compare by description and objects structurally (the library's claims
never rely on reference identity of colliding keys). -/
def jsEq : JSValue → JSValue → Bool
  | vUndefined, vUndefined => true
  | vNull, vNull => true
  | vBool a, vBool b => a == b
  | vNum a, vNum b => a == b
  | vStr a, vStr b => a == b
  | vBigInt a, vBigInt b => a == b
  | vSym a, vSym b => a == b
  | vDate a, vDate b => a == b
  | vArr a, vArr b => jsEqList a b
  | vObj a, vObj b => jsEqFields a b
  | vMap a, vMap b => jsEqEntries a b
  | vSet a, vSet b => jsEqList a b
  | _, _ => false

/-- Pointwise `jsEq` on element lists. -/
def jsEqList : List JSValue → List JSValue → Bool
  | [], [] => true
  | x :: xs, y :: ys => jsEq x y && jsEqList xs ys
  | _, _ => false

/-- Pointwise `jsEq` on object fields. -/
def jsEqFields : List (String × JSValue) → List (String × JSValue) → Bool
  | [], [] => true
  | (k1, v1) :: r1, (k2, v2) :: r2 => k1 == k2 && jsEq v1 v2 && jsEqFields r1 r2
  | _, _ => false

/-- Pointwise `jsEq` on map entries. -/
def jsEqEntries : List (JSValue × JSValue) → List (JSValue × JSValue) → Bool
  | [], [] => true
  | (k1, v1) :: r1, (k2, v2) :: r2 => jsEq k1 k2 && jsEq v1 v2 && jsEqEntries r1 r2
  | _, _ => false

end

/-! ### Date model (`new Date(string)`, `toISOString`) -/

/-- Gregorian leap year. -/
def isLeapYear (y : ℕ) : Bool :=
  y % 4 = 0 && (y % 100 ≠ 0 || y % 400 = 0)

/-- Days in month `m` (1-based) of year `y`. -/
def daysInMonth (y m : ℕ) : ℕ :=
  match m with
  | 1 => 31
  | 2 => if isLeapYear y then 29 else 28
  | 3 => 31
  | 4 => 30
  | 5 => 31
  | 6 => 30
  | 7 => 31
  | 8 => 31
  | 9 => 30
  | 10 => 31
  | 11 => 30
  | 12 => 31
  | _ => 0

/-- Days between 1970-01-01 and `y`-`m`-`d` (for `y ≥ 1970`). -/
def daysFromEpoch (y m d : ℕ) : ℕ :=
  ((List.range (y - 1970)).map (fun i => if isLeapYear (1970 + i) then 366 else 365)).sum
    + ((List.range (m - 1)).map (fun i => daysInMonth y (i + 1))).sum
    + (d - 1)

/-- Model of `new Date(string).getTime()`: an ISO calendar date
(`YYYY-MM-DD`, year 1970 or later) yields its UTC time value in milliseconds;
every other string is treated as unparsable (`NaN`).  The host accepts more
formats, but no property proved here decodes one. -/
def dateParse (s : String) : JSNum :=
  match s.toList with
  | [y1, y2, y3, y4, '-', m1, m2, '-', d1, d2] =>
      if [y1, y2, y3, y4, m1, m2, d1, d2].all Char.isDigit then
        let y := digitsToNat [y1, y2, y3, y4]
        let m := digitsToNat [m1, m2]
        let d := digitsToNat [d1, d2]
        if 1970 ≤ y ∧ 1 ≤ m ∧ m ≤ 12 ∧ 1 ≤ d ∧ d ≤ daysInMonth y m then
          val ((86400000 * daysFromEpoch y m d : ℕ) : ℚ)
        else nan
      else nan
  | _ => nan

/-- Left-pad a numeral with zeros to width `w`. -/
def padNum (w n : ℕ) : String :=
  let s := toString n
  String.mk (List.replicate (w - s.length) '0') ++ s

/-- Convert a day count since 1970-01-01 back to a calendar date. -/
def civilFromDays (n : ℕ) : ℕ × ℕ × ℕ :=
  let rec findYear : ℕ → ℕ → ℕ → ℕ × ℕ
    | y, r, 0 => (y, r)
    | y, r, fuel + 1 =>
        let len := if isLeapYear y then 366 else 365
        if r < len then (y, r) else findYear (y + 1) (r - len) fuel
  let (y, r1) := findYear 1970 n (n + 1)
  let rec findMonth : ℕ → ℕ → ℕ → ℕ × ℕ
    | m, r, 0 => (m, r)
    | m, r, fuel + 1 =>
        let len := daysInMonth y m
        if r < len ∨ 12 ≤ m then (m, r) else findMonth (m + 1) (r - len) fuel
  let (m, r2) := findMonth 1 r1 12
  (y, m, r2 + 1)

/-- Model of `Date.prototype.toISOString` on a valid (integral, non-negative)
time value; other time values are rendered deterministically (the host would
raise or print an extended year, which no proved property observes). -/
def isoString (t : JSNum) : String :=
  match t with
  | val q =>
      if q.den = 1 ∧ 0 ≤ q.num then
        let ms := q.num.toNat
        let (y, m, d) := civilFromDays (ms / 86400000)
        let rem := ms % 86400000
        padNum 4 y ++ "-" ++ padNum 2 m ++ "-" ++ padNum 2 d ++ "T"
          ++ padNum 2 (rem / 3600000) ++ ":" ++ padNum 2 (rem % 3600000 / 60000) ++ ":"
          ++ padNum 2 (rem % 60000 / 1000) ++ "." ++ padNum 3 (rem % 1000) ++ "Z"
      else "0000-00-00T00:00:00.000Z"
  | _ => "0000-00-00T00:00:00.000Z"

/-! ### Error model (error.ts) and path utility (util/path.ts) -/

/-- A thrown JavaScript error as the schema core can observe it: the two
`ViolationError` subclasses it raises itself, or an opaque host error
(`TypeError`, `SyntaxError`, `RangeError`) identified by its name. -/
inductive JSError where
  | unsupportedType (value : JSValue) (path : Option String)
  | unsupportedValue (value : JSValue) (path : Option String)
  | hostError (name : String)

/-- `error instanceof ViolationError`. -/
def isViolationError : JSError → Bool
  | .unsupportedType _ _ => true
  | .unsupportedValue _ _ => true
  | .hostError _ => false

/-- The argument map of a violation: the offending value, a captured error,
a numeric bound, or nothing. -/
inductive ViolationArgs where
  | noArgs
  | value (v : JSValue)
  | error (e : JSError)
  | limit (n : JSNum)

/-- Violation record (error.ts). -/
structure Violation where
  type : String
  message : Option String := none
  args : ViolationArgs := .noArgs
  path : Option String := none

/-- The `violations` carried by a `ViolationError` (error.ts): each subclass
constructor wraps a single violation. -/
def violationsOfError : JSError → List Violation
  | .unsupportedType v p =>
      [{ type := "unsupported.type"
         message := some ("Unsupported value type of \"" ++ typeofString v ++ "\"")
         args := .value v
         path := p }]
  | .unsupportedValue v p =>
      [{ type := "unsupported.value"
         message := some ("Unsupported value of \"" ++ jsToString v ++ "\"")
         args := .value v
         path := p }]
  | .hostError _ => []

/-- `split('.')` on the character list (JavaScript `String.prototype.split`
with a one-character separator). -/
def splitOnDotL : List Char → List (List Char)
  | [] => [[]]
  | x :: xs =>
      if x = '.' then [] :: splitOnDotL xs
      else
        match splitOnDotL xs with
        | h :: t => (x :: h) :: t
        | [] => [[x]]

/-- `key.split('.')`. -/
def splitOnDot (s : String) : List String :=
  (splitOnDotL s.toList).map String.mk

/-- util/path.ts `resolvePath`: drop `undefined` segments, split the rest on
dots, drop empty segments, and re-join with dots. -/
def resolvePath (keys : List (Option String)) : String :=
  String.intercalate "." ((((keys.filterMap id).map splitOnDot).flatten).filter (fun k => k ≠ ""))

/-- schema.ts `reException` applied to an already-materialized outcome: an
`UnsupportedTypeError` is re-thrown with the path prefixed; an
`UnsupportedValueError` is re-thrown as an `UnsupportedTypeError` (the class
is not preserved) with the path prefixed; other errors propagate unchanged. -/
def reExceptionErr (path : Option String) : JSError → JSError
  | .unsupportedType v p => .unsupportedType v (some (resolvePath [path, p]))
  | .unsupportedValue v p => .unsupportedType v (some (resolvePath [path, p]))
  | e => e

/-- `reException` on an `Except` computation. -/
def reException {α : Type} (path : Option String) : Except JSError α → Except JSError α
  | .ok a => .ok a
  | .error e => .error (reExceptionErr path e)

/-! ### JSON (`JSON.parse` / `JSON.stringify` models) -/

/-- The opening brace character, `{`. -/
def braceOpen : Char := Char.ofNat 123

/-- The closing brace character, `}`. -/
def braceClose : Char := Char.ofNat 125

/-- JSON string escaping for one character. -/
def jsonEscapeChar (c : Char) : String :=
  if c = '"' then "\\\""
  else if c = '\\' then "\\\\"
  else if c = '\n' then "\\n"
  else if c = '\t' then "\\t"
  else if c = '\r' then "\\r"
  else if c.toNat < 32 then "\\u00" ++ toString (c.toNat / 16) ++ toString (c.toNat % 16)
  else String.mk [c]

/-- Quote a string as a JSON string literal. -/
def jsonQuote (s : String) : String :=
  "\"" ++ String.join (s.toList.map jsonEscapeChar) ++ "\""

mutual

/-- Model of `JSON.stringify`: `none` models the `undefined` result on
`undefined`/symbol inputs, the error models the `TypeError` thrown on
bigints.  `Map`/`Set` instances have no own enumerable properties and render
as empty objects; a `Date` renders via its `toJSON` (ISO string, or `null`
when invalid). -/
def jsonStringify : JSValue → Except JSError (Option String)
  | vUndefined => .ok none
  | vSym _ => .ok none
  | vNull => .ok (some "null")
  | vBool b => .ok (some (cond b "true" "false"))
  | vNum n =>
      .ok (some (match n with
        | val q => numToString (val q)
        | _ => "null"))
  | vStr s => .ok (some (jsonQuote s))
  | vBigInt _ => .error (.hostError "TypeError")
  | vDate t => .ok (some (if t = nan then "null" else jsonQuote (isoString t)))
  | vArr xs => do
      let parts ← jsonStringifyArr xs
      .ok (some ("[" ++ String.intercalate "," parts ++ "]"))
  | vObj fs => do
      let parts ← jsonStringifyFields fs
      .ok (some (String.mk [braceOpen] ++ String.intercalate "," parts ++ String.mk [braceClose]))
  | vMap _ => .ok (some (String.mk [braceOpen, braceClose]))
  | vSet _ => .ok (some (String.mk [braceOpen, braceClose]))

/-- Array elements: `undefined`/symbols render as `null`. -/
def jsonStringifyArr : List JSValue → Except JSError (List String)
  | [] => .ok []
  | x :: xs => do
      let s ← jsonStringify x
      let rest ← jsonStringifyArr xs
      .ok (s.getD "null" :: rest)

/-- Object members: properties whose value stringifies to `undefined` are
skipped. -/
def jsonStringifyFields : List (String × JSValue) → Except JSError (List String)
  | [] => .ok []
  | (k, v) :: fs => do
      let s ← jsonStringify v
      let rest ← jsonStringifyFields fs
      .ok (match s with
        | some str => (jsonQuote k ++ ":" ++ str) :: rest
        | none => rest)

end

/-- Whitespace skipping for the JSON parser. -/
def jsonSkipWs : List Char → List Char
  | c :: cs => if c = ' ' ∨ c = '\n' ∨ c = '\t' ∨ c = '\r' then jsonSkipWs cs else c :: cs
  | [] => []

/-- Strip an expected literal prefix. -/
def stripPrefixL : List Char → List Char → Option (List Char)
  | [], cs => some cs
  | p :: ps, c :: cs => if p = c then stripPrefixL ps cs else none
  | _ :: _, [] => none

/-- Parse a JSON string body after the opening quote (supports the standard
escapes; `\\uXXXX` decodes through `Char.ofNat`). -/
def jsonParseStrBody : List Char → String → Option (String × List Char)
  | [], _ => none
  | c :: cs, acc =>
      if c = '"' then some (acc, cs)
      else if c = '\\' then
        match cs with
        | [] => none
        | e :: cs2 =>
            if e = '"' then jsonParseStrBody cs2 (acc ++ "\"")
            else if e = '\\' then jsonParseStrBody cs2 (acc ++ "\\")
            else if e = '/' then jsonParseStrBody cs2 (acc ++ "/")
            else if e = 'n' then jsonParseStrBody cs2 (acc ++ "\n")
            else if e = 't' then jsonParseStrBody cs2 (acc ++ "\t")
            else if e = 'r' then jsonParseStrBody cs2 (acc ++ "\r")
            else if e = 'b' then jsonParseStrBody cs2 (acc ++ String.mk [Char.ofNat 8])
            else if e = 'f' then jsonParseStrBody cs2 (acc ++ String.mk [Char.ofNat 12])
            else if e = 'u' then
              match cs2 with
              | h1 :: h2 :: h3 :: h4 :: cs3 =>
                  if [h1, h2, h3, h4].all (fun h => (radixDigitVal h).isSome) then
                    jsonParseStrBody cs3 (acc ++ String.mk [Char.ofNat (radixToNat 16 [h1, h2, h3, h4])])
                  else none
              | _ => none
            else none
      else jsonParseStrBody cs (acc ++ String.mk [c])

/-- Parse a JSON number (sign, integer part, optional fraction/exponent). -/
def jsonParseNum (cs : List Char) : Option (JSValue × List Char) :=
  let (sgn, cs1) : ℚ × List Char :=
    match cs with
    | '-' :: t => (-1, t)
    | t => (1, t)
  let (ip, cs2) := takeDigitsL cs1
  if ip = [] then none
  else
    let (fp, cs3) :=
      match cs2 with
      | '.' :: t =>
          let (d, r) := takeDigitsL t
          (d, r)
      | _ => ([], cs2)
    let mant : ℚ := (digitsToNat ip : ℚ) + (digitsToNat fp : ℚ) / ((10 : ℚ) ^ fp.length)
    match cs3 with
    | e :: t =>
        if e = 'e' ∨ e = 'E' then
          let (esgn, t2) : ℤ × List Char :=
            match t with
            | '+' :: u => (1, u)
            | '-' :: u => (-1, u)
            | u => (1, u)
          let (eds, t3) := takeDigitsL t2
          if eds = [] then none
          else some (vNum (val (sgn * mant * (10 : ℚ) ^ (esgn * (digitsToNat eds : ℤ)))), t3)
        else some (vNum (val (sgn * mant)), cs3)
    | [] => some (vNum (val (sgn * mant)), [])

/-- Fuel-driven JSON value parser.  An array or object body is parsed by
re-entering the parser on the remaining text with the opening bracket
re-attached, so a single structurally recursive function covers the whole
grammar. -/
def jsonParseV : ℕ → List Char → Option (JSValue × List Char)
  | 0, _ => none
  | fuel + 1, cs =>
      match jsonSkipWs cs with
      | [] => none
      | c :: rest =>
          if c = 'n' then (stripPrefixL "ull".toList rest).map (fun r => (vNull, r))
          else if c = 't' then (stripPrefixL "rue".toList rest).map (fun r => (vBool true, r))
          else if c = 'f' then (stripPrefixL "alse".toList rest).map (fun r => (vBool false, r))
          else if c = '"' then (jsonParseStrBody rest "").map (fun (s, r) => (vStr s, r))
          else if c = '[' then
            match jsonSkipWs rest with
            | ']' :: r => some (vArr [], r)
            | body =>
                match jsonParseV fuel body with
                | none => none
                | some (v, r1) =>
                    match jsonSkipWs r1 with
                    | ',' :: r2 =>
                        match jsonSkipWs r2 with
                        | ']' :: _ => none
                        | _ =>
                            match jsonParseV fuel ('[' :: r2) with
                            | some (vArr vs, r3) => some (vArr (v :: vs), r3)
                            | _ => none
                    | ']' :: r2 => some (vArr [v], r2)
                    | _ => none
          else if c = braceOpen then
            match jsonSkipWs rest with
            | d :: r =>
                if d = braceClose then some (vObj [], r)
                else if d = '"' then
                  match jsonParseStrBody r "" with
                  | none => none
                  | some (k, r1) =>
                      match jsonSkipWs r1 with
                      | ':' :: r2 =>
                          match jsonParseV fuel r2 with
                          | none => none
                          | some (v, r3) =>
                              match jsonSkipWs r3 with
                              | ',' :: r4 =>
                                  match jsonSkipWs r4 with
                                  | e :: _ =>
                                      if e = '"' then
                                        match jsonParseV fuel (braceOpen :: r4) with
                                        | some (vObj fs, r5) => some (vObj ((k, v) :: fs), r5)
                                        | _ => none
                                      else none
                                  | [] => none
                              | e :: r4 =>
                                  if e = braceClose then some (vObj [(k, v)], r4) else none
                              | _ => none
                      | _ => none
                else none
            | [] => none
          else jsonParseNum (c :: rest)

/-- Model of `JSON.parse`: `none` models the thrown `SyntaxError`. -/
def jsonParse (s : String) : Option JSValue :=
  let cs := s.toList
  match jsonParseV (2 * cs.length + 2) cs with
  | some (v, rest) => if jsonSkipWs rest = [] then some v else none
  | none => none

/-! ### Generic string-keyed association lists (object property stores)

JavaScript object semantics shared by schema definitions, object spread and
`Object.fromEntries`: lookup returns the value of the (unique) matching key,
and assignment updates an existing key in place or appends a fresh one. -/

/-- Property lookup: first entry with the given key. -/
def listLookup {V : Type} : List (String × V) → String → Option V
  | [], _ => none
  | (k1, v1) :: rest, k => if k1 = k then some v1 else listLookup rest k

/-- Property assignment (`{...obj, [key]: value}` / `obj[key] = value`): an
existing key keeps its position and gets the new value, otherwise the entry
is appended. -/
def listSpreadSet {V : Type} (d : List (String × V)) (k : String) (v : V) :
    List (String × V) :=
  if d.any (fun p => p.1 = k) then d.map (fun p => if p.1 = k then (k, v) else p)
  else d ++ [(k, v)]

/-! ### The schema universe (schema.ts)

Each constructor corresponds to one factory function of the builder surface
`t`.  A schema's structural configuration (inner schema, items, properties,
members, key/value) is carried by the constructor; the constraint list, which
`is`/`decode`/`encode` never read, is modelled separately with the immutable
builder (see `SchemaRec` below). -/

/-- A literal schema's configured value (`Literal = boolean | number | string`). -/
inductive LitVal where
  | lb (b : Bool)
  | ln (n : JSNum)
  | ls (s : String)

/-- Strict equality (`===`) on numbers: `NaN` is not equal to anything. -/
def strictNumEq : JSNum → JSNum → Bool
  | nan, _ => false
  | _, nan => false
  | a, b => a == b

/-- `this.value === value` for a literal schema. -/
def litEq : LitVal → JSValue → Bool
  | .lb a, vBool b => a == b
  | .ln a, vNum b => strictNumEq a b
  | .ls a, vStr b => a == b
  | _, _ => false

/-- The restricted key schema of a map (`KeySchema = StringSchema |
NumberSchema | SymbolSchema`). -/
inductive KeySch where
  | kstring
  | knumber
  | ksymbol

/-- The closed set of schema variants reachable from the factory surface. -/
inductive Sch where
  | any
  | unknown
  | boolean
  | number
  | string
  | null
  | undefined
  | bigint
  | date
  | symbol
  | literal (value : LitVal)
  | array (schema : Sch)
  | json (schema : Sch)
  | nullable (schema : Sch)
  | optional (schema : Sch)
  | map (key : KeySch) (value : Sch)
  | set (value : Sch)
  | tuple (items : List Sch)
  | object (properties : List (String × Sch))
  | union (members : List Sch)
  | intersect (members : List Sch)

/-- `value === null`. -/
def isNullV : JSValue → Bool
  | vNull => true
  | _ => false

/-- `value === undefined`. -/
def isUndefinedV : JSValue → Bool
  | vUndefined => true
  | _ => false

/-- `(value as AnyRecord)[key]` — property access by string key. -/
def jsGet : JSValue → String → JSValue
  | vObj fs, k => (listLookup fs k).getD vUndefined
  | vArr xs, k =>
      match k.toNat? with
      | some i => xs.getD i vUndefined
      | none => vUndefined
  | _, _ => vUndefined

/-- `value[index]` — element access by numeric index. -/
def jsIndex : JSValue → ℕ → JSValue
  | vArr xs, i => xs.getD i vUndefined
  | vStr s, i =>
      match s.toList.get? i with
      | some c => vStr (String.mk [c])
      | none => vUndefined
  | _, _ => vUndefined

/-- `string/number/symbol key schema `is`. -/
def keyIs : KeySch → JSValue → Bool
  | .kstring, v => isStringV v
  | .knumber, v => isNumberV v
  | .ksymbol, v => isSymbolV v

/-- `value.find((v) => !p(v)) === undefined` — the source's idiom compares
the FOUND ELEMENT with `undefined`, so the test also passes when the first
failing element is itself `undefined`. -/
def arrayFindGo (p : JSValue → Bool) : List JSValue → Bool
  | [] => true
  | x :: xs => if p x then arrayFindGo p xs else isUndefinedV x

/-- `entries.find(([k, v]) => !(pk(k) && pv(v))) === undefined`; an entry
pair is never `undefined`, so the idiom is a plain conjunction. -/
def mapEntriesGoIs (pk pv : JSValue → Bool) : List (JSValue × JSValue) → Bool
  | [] => true
  | (a, b) :: rest => pk a && pv b && mapEntriesGoIs pk pv rest

mutual

/-- The `is` type guard of every schema variant (schema.ts). -/
def isS : Sch → JSValue → Bool
  | .any, _ => true
  | .unknown, _ => true
  | .boolean, v => isBooleanV v
  | .number, v => isNumberV v
  | .string, v => isStringV v
  | .null, v => isNullV v
  | .undefined, v => isUndefinedV v
  | .bigint, v => isBigIntV v
  | .date, v => isDateV v
  | .symbol, v => isSymbolV v
  | .literal lv, v => litEq lv v
  | .array s, v =>
      match v with
      | vArr xs => arrayFindGo (fun x => isS s x) xs
      | _ => false
  | .json s, v => isS s v
  | .nullable s, v => isNullV v || isS s v
  | .optional s, v => isUndefinedV v || isS s v
  | .map k vsch, v =>
      match v with
      | vMap es => mapEntriesGoIs (keyIs k) (fun b => isS vsch b) es
      | _ => false
  | .set s, v =>
      match v with
      | vSet xs => arrayFindGo (fun x => isS s x) xs
      | _ => false
  | .tuple items, v =>
      match v with
      | vArr xs => tupleCheck items xs 0
      | _ => false
  | .object props, v =>
      if typeofObject v && !isNullV v then objCheck props v else false
  | .union ms, v => (findIsMember ms v).isSome
  | .intersect ms, v => allIsMembers ms v

/-- Every positional schema matches `value[index]` (excess elements are not
inspected; the schema list contains no `undefined`, so the source's
`find(...) === undefined` is a conjunction). -/
def tupleCheck : List Sch → List JSValue → ℕ → Bool
  | [], _, _ => true
  | m :: rest, xs, i => isS m (xs.getD i vUndefined) && tupleCheck rest xs (i + 1)

/-- Every declared property's value satisfies its schema. -/
def objCheck : List (String × Sch) → JSValue → Bool
  | [], _ => true
  | (k, s) :: rest, v => isS s (jsGet v k) && objCheck rest v

/-- `members.find((member) => member.is(value))`. -/
def findIsMember : List Sch → JSValue → Option Sch
  | [], _ => none
  | m :: rest, v => if isS m v then some m else findIsMember rest v

/-- `members.find((member) => !member.is(value)) === undefined`. -/
def allIsMembers : List Sch → JSValue → Bool
  | [], _ => true
  | m :: rest, v => isS m v && allIsMembers rest v

end

/-! ### Decoding (schema.ts `decode`) -/

/-- The outcome of a `decode`/`encode` call: the produced value, or the
thrown error. -/
abbrev DRes := Except JSError JSValue

/-- BooleanSchema.decode: `!!value`. -/
def decodeBoolean (v : JSValue) : DRes := .ok (vBool (truthy v))

/-- NumberSchema.decode: pass numbers through, `undefined` to `0`, the exact
strings `"NaN"`/`"-NaN"` to `NaN`, everything else through `Number(value)`
(which throws a `TypeError` on symbols). -/
def decodeNumber (v : JSValue) : DRes :=
  if isNumberV v then .ok v
  else
    match v with
    | vUndefined => .ok (vNum (val 0))
    | vStr s =>
        if s = "NaN" then .ok (vNum nan)
        else if s = "-NaN" then .ok (vNum (negNum nan))
        else .ok (vNum (strToNumber s))
    | w =>
        match toNumber w with
        | some n => .ok (vNum n)
        | none => .error (.hostError "TypeError")

/-- StringSchema.decode as a plain string: pass strings through,
`null`/`undefined` to the empty string, otherwise `String(value)`. -/
def stringDecodeStr : JSValue → String
  | vStr s => s
  | vNull => ""
  | vUndefined => ""
  | w => jsToString w

/-- StringSchema.decode. -/
def decodeString (v : JSValue) : DRes := .ok (vStr (stringDecodeStr v))

/-- NullSchema.decode. -/
def decodeNull : JSValue → DRes
  | vNull => .ok vNull
  | w => .error (.unsupportedType w none)

/-- UndefinedSchema.decode. -/
def decodeUndefined : JSValue → DRes
  | vUndefined => .ok vUndefined
  | w => .error (.unsupportedType w none)

/-- The zero-like inputs BigIntSchema.decode maps to `0n`: `false`, `null`,
`undefined`, `±0`, `0n`, `NaN` and the empty string (the `0n` test can only
fire after the bigint passthrough and is kept for fidelity). -/
def bigintZeroInput : JSValue → Bool
  | vBool false => true
  | vNull => true
  | vUndefined => true
  | vNum (val q) => q = 0
  | vNum nan => true
  | vStr "" => true
  | vBigInt 0 => true
  | _ => false

/-- BigIntSchema.decode. -/
def decodeBigInt (v : JSValue) : DRes :=
  if isBigIntV v then .ok v
  else if bigintZeroInput v then .ok (vBigInt 0)
  else
    match v with
    | vStr s =>
        match strToBigInt s with
        | some i => .ok (vBigInt i)
        | none => .error (.unsupportedValue (vStr s) none)
    | vNum n =>
        match bigIntFromNum n with
        | some i => .ok (vBigInt i)
        | none => .error (.unsupportedValue (vNum n) none)
    | vBool b => .ok (vBigInt (cond b 1 0))
    | w => .error (.unsupportedType w none)

/-- DateSchema.decode: pass `Date` instances through, parse strings (an
unparsable string throws `UnsupportedValueError`), reject every other type. -/
def decodeDate : JSValue → DRes
  | vDate t => .ok (vDate t)
  | vStr s =>
      if dateParse s = nan then .error (.unsupportedValue (vStr s) none)
      else .ok (vDate (dateParse s))
  | w => .error (.unsupportedType w none)

/-- SymbolSchema.decode: pass symbols through, wrap strings, numbers and
`undefined` in `Symbol(value)`, reject the rest. -/
def decodeSymbol : JSValue → DRes
  | vSym d => .ok (vSym d)
  | vStr s => .ok (vSym (some s))
  | vNum n => .ok (vSym (some (numToString n)))
  | vUndefined => .ok (vSym none)
  | w => .error (.unsupportedType w none)

/-- The map key schema's decode. -/
def keyDecode : KeySch → JSValue → DRes
  | .kstring, v => decodeString v
  | .knumber, v => decodeNumber v
  | .ksymbol, v => decodeSymbol v

/-- MapSchema.toEntries: arrays become entry pairs (non-pair items become
keys with `undefined` values), `Map` instances contribute their entries,
non-null objects their `Object.entries`; everything else throws. -/
def toEntries : JSValue → Except JSError (List (JSValue × JSValue))
  | vArr xs =>
      .ok (xs.map (fun item =>
        match item with
        | vArr [] => (vUndefined, vUndefined)
        | vArr [a] => (a, vUndefined)
        | vArr (a :: b :: _) => (a, b)
        | w => (w, vUndefined)))
  | vMap es => .ok es
  | vObj fs => .ok (fs.map (fun p => (vStr p.1, p.2)))
  | vDate _ => .ok []
  | vSet _ => .ok []
  | w => .error (.unsupportedType w none)

/-- `map.set(k, v)` semantics of the `Map` constructor: an existing
SameValueZero-equal key keeps its position and gets the new value, otherwise
the entry is appended. -/
def mapSetEntry (acc : List (JSValue × JSValue)) (k v : JSValue) : List (JSValue × JSValue) :=
  if acc.any (fun p => jsEq p.1 k) then acc.map (fun p => if jsEq p.1 k then (p.1, v) else p)
  else acc ++ [(k, v)]

/-- `new Map(entries)`: later entries with an equal key overwrite earlier
values. -/
def mapDedup (l : List (JSValue × JSValue)) : List (JSValue × JSValue) :=
  l.foldl (fun acc p => mapSetEntry acc p.1 p.2) []

/-- `new Set(values)`: keep the first occurrence of each element. -/
def setDedup (l : List JSValue) : List JSValue :=
  l.foldl (fun acc x => if acc.any (fun y => jsEq y x) then acc else acc ++ [x]) []

/-- Own enumerable string-keyed properties contributed by object spread:
object fields, array elements under their stringified indexes; `null` and
`Map`/`Set`/`Date` instances contribute nothing. -/
def objPropsOf : JSValue → List (String × JSValue)
  | vObj fs => fs
  | vArr xs => xs.enum.map (fun p => (toString p.1, p.2))
  | _ => []

/-- Property assignment during spread. -/
def setPropJS (l : List (String × JSValue)) (k : String) (v : JSValue) : List (String × JSValue) :=
  listSpreadSet l k v

/-- Spread `adds` over `base` in order. -/
def spreadInto (base adds : List (String × JSValue)) : List (String × JSValue) :=
  adds.foldl (fun acc p => setPropJS acc p.1 p.2) base

/-- schema.ts `merge(base, target)` = `{...target, ...base}` — the base's
properties win on key collision. -/
def mergeJS (base target : JSValue) : JSValue :=
  vObj (spreadInto (objPropsOf target) (objPropsOf base))

/-- `String(this.key)` in MapSchema.decode stringifies the key SCHEMA object
(not the entry key); a schema instance is an ordinary object, so its string
form is `[object Object]`. -/
def stringOfSchemaObject : String := "[object Object]"

/-- Decode/encode a list of elements with `dec`, each wrapped in
`reException` with its stringified index. -/
def itemsGo (dec : JSValue → DRes) : List JSValue → ℕ → Except JSError (List JSValue)
  | [], _ => .ok []
  | x :: xs, i => do
      let y ← reException (some (toString i)) (dec x)
      let ys ← itemsGo dec xs (i + 1)
      .ok (y :: ys)

/-- Decode/encode a list of set elements with `dec` (no `reException`, no
path annotation in the source). -/
def plainItemsGo (dec : JSValue → DRes) : List JSValue → Except JSError (List JSValue)
  | [] => .ok []
  | x :: xs => do
      let y ← dec x
      let ys ← plainItemsGo dec xs
      .ok (y :: ys)

/-- Process map entry pairs: key and value are converted inside one
`reException` whose path segment is produced by `pathOf` from the raw entry
key. -/
def mapPairsGo (pathOf : JSValue → String) (dk dv : JSValue → DRes) :
    List (JSValue × JSValue) → Except JSError (List (JSValue × JSValue))
  | [] => .ok []
  | (a, b) :: rest => do
      let p ← reException (some (pathOf a)) (do
        let a2 ← dk a
        let b2 ← dv b
        pure (a2, b2))
      let ps ← mapPairsGo pathOf dk dv rest
      .ok (p :: ps)

mutual

/-- The `decode` coercion of every schema variant (schema.ts). -/
def decodeS : Sch → JSValue → DRes
  | .any, v => .ok v
  | .unknown, v => .ok v
  | .boolean, v => decodeBoolean v
  | .number, v => decodeNumber v
  | .string, v => decodeString v
  | .null, v => decodeNull v
  | .undefined, v => decodeUndefined v
  | .bigint, v => decodeBigInt v
  | .date, v => decodeDate v
  | .symbol, v => decodeSymbol v
  | .literal lv, v => if litEq lv v then .ok v else .error (.unsupportedValue v none)
  | .array s, v =>
      if isS (.array s) v then .ok v
      else
        let values : List JSValue :=
          match v with
          | vArr xs => xs
          | vUndefined => []
          | vNull => []
          | w => [w]
        (itemsGo (fun x => decodeS s x) values 0).map vArr
  | .json s, v =>
      match jsonParse (stringDecodeStr v) with
      | some parsed => decodeS s parsed
      | none => .error (.hostError "SyntaxError")
  | .nullable s, v => if isNullV v then .ok vNull else decodeS s v
  | .optional s, v => if isUndefinedV v then .ok vUndefined else decodeS s v
  | .map k vsch, v =>
      if isS (.map k vsch) v then .ok v
      else
        match toEntries v with
        | .error e => .error e
        | .ok entries =>
            (mapPairsGo (fun _ => stringOfSchemaObject) (keyDecode k)
                (fun b => decodeS vsch b) entries).map (fun es => vMap (mapDedup es))
  | .set s, v =>
      if isS (.set s) v then .ok v
      else
        match v with
        | vArr xs => (plainItemsGo (fun x => decodeS s x) xs).map (fun ys => vSet (setDedup ys))
        | w => .error (.unsupportedType w none)
  | .tuple items, v =>
      if isS (.tuple items) v then .ok v
      else
        match v with
        | vArr xs => (decodeTupleItems items xs 0).map vArr
        | w => .error (.unsupportedType w none)
  | .object props, v =>
      if isS (.object props) v then .ok v
      else if typeofObject v && !isNullV v then (decodeObjProps props v).map vObj
      else .error (.unsupportedType v none)
  | .union ms, v =>
      if isS (.union ms) v then .ok v
      else
        match decodeUnionFirstPass ms v with
        | some r => r
        | none => decodeUnionBrute ms v
  | .intersect ms, v =>
      if isS (.intersect ms) v then .ok v
      else (decodeMembers ms v).map (fun rs => (rs.filter typeofObject).foldl mergeJS (vObj []))

/-- Tuple items: each positional schema decodes `value[index]`, wrapped in
`reException` with the stringified index. -/
def decodeTupleItems : List Sch → List JSValue → ℕ → Except JSError (List JSValue)
  | [], _, _ => .ok []
  | m :: rest, xs, i => do
      let y ← reException (some (toString i)) (decodeS m (xs.getD i vUndefined))
      let ys ← decodeTupleItems rest xs (i + 1)
      .ok (y :: ys)

/-- Object properties: each declared key decodes `value[key]`, wrapped in
`reException` with the key. -/
def decodeObjProps : List (String × Sch) → JSValue → Except JSError (List (String × JSValue))
  | [], _ => .ok []
  | (k, s) :: rest, v => do
      let y ← reException (some k) (decodeS s (jsGet v k))
      let ys ← decodeObjProps rest v
      .ok ((k, y) :: ys)

/-- Union first pass (`for member of members: if member.is(value) return
member.decode(value)`): decode with the first member whose `is` matches.
When the union's own `is` has already returned false no member matches, so
this pass never fires — kept verbatim from the source nonetheless. -/
def decodeUnionFirstPass : List Sch → JSValue → Option DRes
  | [], _ => none
  | m :: rest, v => if isS m v then some (decodeS m v) else decodeUnionFirstPass rest v

/-- Union brute-force pass: first member whose decode does not throw wins;
when all throw, an `UnsupportedTypeError` is raised. -/
def decodeUnionBrute : List Sch → JSValue → DRes
  | [], v => .error (.unsupportedType v none)
  | m :: rest, v =>
      match decodeS m v with
      | .ok r => .ok r
      | .error _ => decodeUnionBrute rest v

/-- Intersect: decode against every member (fail-fast on the first thrown
error, no path annotation in the source). -/
def decodeMembers : List Sch → JSValue → Except JSError (List JSValue)
  | [], _ => .ok []
  | m :: rest, v => do
      let r ← decodeS m v
      let rs ← decodeMembers rest v
      .ok (r :: rs)

end

/-! ### Encoding (schema.ts `encode`) -/

/-- BigIntSchema.encode: `value.toString()` (a method call, so it throws
`TypeError` on `null`/`undefined`). -/
def encodeBigInt : JSValue → DRes
  | vBigInt i => .ok (vStr (toString i))
  | vNull => .error (.hostError "TypeError")
  | vUndefined => .error (.hostError "TypeError")
  | w => .ok (vStr (jsToString w))

/-- DateSchema.encode: `value.toISOString()` (`RangeError` on an invalid
date, `TypeError` when the value is not a `Date`). -/
def encodeDate : JSValue → DRes
  | vDate t => if t = nan then .error (.hostError "RangeError") else .ok (vStr (isoString t))
  | _ => .error (.hostError "TypeError")

/-- SymbolSchema.encode: `value.description ?? ''` (property access throws on
`null`/`undefined`, yields `undefined` — hence `''` — on other non-symbols). -/
def encodeSymbol : JSValue → DRes
  | vSym d => .ok (vStr (d.getD ""))
  | vNull => .error (.hostError "TypeError")
  | vUndefined => .error (.hostError "TypeError")
  | _ => .ok (vStr "")

/-- The map key schema's encode. -/
def keyEncode : KeySch → JSValue → DRes
  | .kstring, v => .ok v
  | .knumber, v => .ok v
  | .ksymbol, v => encodeSymbol v

/-- `Object.fromEntries` over already-encoded pairs: keys convert to
property-key strings, later pairs overwrite earlier equal keys. -/
def objFromEntries (ps : List (JSValue × JSValue)) : List (String × JSValue) :=
  ps.foldl (fun acc p => setPropJS acc (jsToString p.1) p.2) []

mutual

/-- The `encode` transform of every schema variant (schema.ts). -/
def encodeS : Sch → JSValue → DRes
  | .any, v => .ok v
  | .unknown, v => .ok v
  | .boolean, v => .ok v
  | .number, v => .ok v
  | .string, v => .ok v
  | .null, v => .ok v
  | .undefined, v => .ok v
  | .bigint, v => encodeBigInt v
  | .date, v => encodeDate v
  | .symbol, v => encodeSymbol v
  | .literal _, v => .ok v
  | .array s, v =>
      match v with
      | vArr xs => (itemsGo (fun x => encodeS s x) xs 0).map vArr
      | _ => .error (.hostError "TypeError")
  | .json s, v =>
      match encodeS s v with
      | .error e => .error e
      | .ok enc =>
          match jsonStringify enc with
          | .error e => .error e
          | .ok (some str) => .ok (vStr str)
          | .ok none => .ok vUndefined
  | .nullable s, v => if isNullV v then .ok vNull else encodeS s v
  | .optional s, v => if isUndefinedV v then .ok vUndefined else encodeS s v
  | .map k vsch, v =>
      match v with
      | vMap es =>
          (mapPairsGo (fun a => jsToString a) (keyEncode k)
              (fun b => encodeS vsch b) es).map (fun ps => vObj (objFromEntries ps))
      | _ => .error (.hostError "TypeError")
  | .set s, v =>
      match v with
      | vSet xs => (plainItemsGo (fun x => encodeS s x) xs).map vArr
      | _ => .error (.hostError "TypeError")
  | .tuple items, v => (encodeTupleItems items v 0).map vArr
  | .object props, v => (encodeObjProps props v).map vObj
  | .union ms, v => encodeUnionFirst ms v
  | .intersect ms, v =>
      (encodeMembers ms v).map (fun rs => (rs.filter typeofObject).foldl mergeJS (vObj []))

/-- Tuple items: each positional schema encodes `value[index]`. -/
def encodeTupleItems : List Sch → JSValue → ℕ → Except JSError (List JSValue)
  | [], _, _ => .ok []
  | m :: rest, v, i => do
      let y ← reException (some (toString i)) (encodeS m (jsIndex v i))
      let ys ← encodeTupleItems rest v (i + 1)
      .ok (y :: ys)

/-- Object properties: each declared key encodes `value[key]`. -/
def encodeObjProps : List (String × Sch) → JSValue → Except JSError (List (String × JSValue))
  | [], _ => .ok []
  | (k, s) :: rest, v => do
      let y ← reException (some k) (encodeS s (jsGet v k))
      let ys ← encodeObjProps rest v
      .ok ((k, y) :: ys)

/-- Union encode: first member whose `is` matches encodes the value; when no
member matches, an `UnsupportedTypeError` is raised. -/
def encodeUnionFirst : List Sch → JSValue → DRes
  | [], v => .error (.unsupportedType v none)
  | m :: rest, v => if isS m v then encodeS m v else encodeUnionFirst rest v

/-- Intersect: encode against every member (fail-fast). -/
def encodeMembers : List Sch → JSValue → Except JSError (List JSValue)
  | [], _ => .ok []
  | m :: rest, v => do
      let r ← encodeS m v
      let rs ← encodeMembers rest v
      .ok (r :: rs)

end

/-! ### Safe wrappers (schema.ts `tryDecode`/`tryEncode`) -/

/-- `ParseResult` (schema.ts). -/
inductive ParseResult where
  | success (value : JSValue)
  | failure (violations : List Violation)

/-- schema.ts `tryDecode`: a thrown `ViolationError` surfaces its violations,
any other thrown error is wrapped in one generic `"decode"` violation with
the original error captured in `args`. -/
def tryDecode (s : Sch) (v : JSValue) : ParseResult :=
  match decodeS s v with
  | .ok r => .success r
  | .error e =>
      if isViolationError e then .failure (violationsOfError e)
      else
        .failure [{ type := "decode"
                    message := some "An error has occurred during decoding"
                    args := .error e }]

/-- schema.ts `tryEncode`, symmetric to `tryDecode` with type `"encode"`. -/
def tryEncode (s : Sch) (v : JSValue) : ParseResult :=
  match encodeS s v with
  | .ok r => .success r
  | .error e =>
      if isViolationError e then .failure (violationsOfError e)
      else
        .failure [{ type := "encode"
                    message := some "An error has occurred during encoding"
                    args := .error e }]

/-! ### Immutable builder and constraint engine (builder.ts, schema.ts)

`ImmutableBuilder.set` builds `new Ctor({...this.definition, [key]: value})`:
the merged definition is a fresh object-spread copy and the constructor is the
receiver's dynamic class, so the subclass is preserved and the original
definition is never written to.  The definition store is modelled as a list of
key/value pairs with object-spread update semantics; the dynamic subclass is
modelled by a `kind` tag carried unchanged through `set`. -/

/-- A constraint attached via `rule` (schema.ts `Constraint`). -/
structure Constraint where
  type : String
  message : Option String := none
  args : ViolationArgs := .noArgs
  test : JSValue → Bool

/-- A value stored in a schema definition. -/
inductive DefVal where
  | constraints (cs : List Constraint)
  | str (s : String)

/-- A schema instance as the immutable builder sees it: its dynamic subclass
and its definition store. -/
structure SchemaRec where
  kind : String
  defn : List (String × DefVal)

/-- `{...definition, [key]: value}` — an existing key keeps its position and
gets the new value, a new key is appended; the input list is not modified. -/
def defSpreadSet (d : List (String × DefVal)) (k : String) (v : DefVal) :
    List (String × DefVal) :=
  listSpreadSet d k v

/-- `ImmutableBuilder.get` — `this.definition[key]`. -/
def defLookup (d : List (String × DefVal)) (k : String) : Option DefVal :=
  listLookup d k

/-- `ImmutableBuilder.set`: a new instance of the same concrete subclass over
the spread-merged definition. -/
def builderSet (S : SchemaRec) (k : String) (v : DefVal) : SchemaRec :=
  { kind := S.kind, defn := defSpreadSet S.defn k v }

/-- `this.get('constraints') ?? []`. -/
def constraintsOf (S : SchemaRec) : List Constraint :=
  match defLookup S.defn "constraints" with
  | some (.constraints cs) => cs
  | _ => []

/-- schema.ts `rule`: `this.set('constraints', this.constraints.concat(c))`. -/
def ruleS (S : SchemaRec) (c : Constraint) : SchemaRec :=
  builderSet S "constraints" (.constraints (constraintsOf S ++ [c]))

/-- schema.ts `label`: `this.set('label', value)`. -/
def labelS (S : SchemaRec) (s : String) : SchemaRec :=
  builderSet S "label" (.str s)

/-- schema.ts `check`: one violation per constraint whose predicate fails. -/
def checkS (S : SchemaRec) (v : JSValue) : List Violation :=
  ((constraintsOf S).filter (fun c => !c.test v)).map
    (fun c => { type := c.type, message := c.message, args := c.args })

/-- schema.ts `test`: `check(value).length === 0`. -/
def testS (S : SchemaRec) (v : JSValue) : Bool :=
  (checkS S v).length = 0

/-- `ValidationResult` (schema.ts). -/
inductive ValidationResult where
  | valid (value : JSValue)
  | invalid (violations : List Violation)

/-- schema.ts `validate`. -/
def validateS (S : SchemaRec) (v : JSValue) : ValidationResult :=
  if (checkS S v).length = 0 then .valid v else .invalid (checkS S v)

/-- NumberSchema.min as an instance of the fluent builders: `rule` with the
`number.min` constraint. -/
def numberMin (S : SchemaRec) (limit : ℚ) : SchemaRec :=
  ruleS S
    { type := "number.min"
      message := some ("must be greater than or equal to " ++ numToString (val limit))
      args := .limit (val limit)
      test := fun v =>
        match v with
        | vNum (val q) => limit ≤ q
        | vNum posInf => true
        | _ => false }

/-! ### Derived notions used by the verified properties -/

/-- Lookup of a property in an object-typed value. -/
def objLookup (v : JSValue) (k : String) : Option JSValue :=
  listLookup (objPropsOf v) k

/-- Modelled from the spec: the decode algorithm the specification describes
for an intersect schema — decode against every member independently, keep the
object-typed results and fold them with earlier-member precedence (the
specification omits the schema's own `is` passthrough shortcut). -/
def intersectDecodeSpec (ms : List Sch) (v : JSValue) : DRes :=
  (decodeMembers ms v).map (fun rs => (rs.filter typeofObject).foldl mergeJS (vObj []))

mutual

/-- No intersect combinator occurs anywhere in the schema. -/
def noIntersect : Sch → Bool
  | .any => true
  | .unknown => true
  | .boolean => true
  | .number => true
  | .string => true
  | .null => true
  | .undefined => true
  | .bigint => true
  | .date => true
  | .symbol => true
  | .literal _ => true
  | .array s => noIntersect s
  | .json s => noIntersect s
  | .nullable s => noIntersect s
  | .optional s => noIntersect s
  | .map _ vsch => noIntersect vsch
  | .set s => noIntersect s
  | .tuple items => noIntersectList items
  | .object props => noIntersectProps props
  | .union ms => noIntersectList ms
  | .intersect _ => false

/-- `noIntersect` over a schema list. -/
def noIntersectList : List Sch → Bool
  | [] => true
  | s :: ss => noIntersect s && noIntersectList ss

/-- `noIntersect` over a property map. -/
def noIntersectProps : List (String × Sch) → Bool
  | [] => true
  | (_, s) :: ps => noIntersect s && noIntersectProps ps

end

/-- All keys pairwise distinct. -/
def distinctKeys : List String → Bool
  | [] => true
  | k :: ks => !ks.contains k && distinctKeys ks

mutual

/-- Well-formedness guaranteed by factory construction: a JavaScript record
literal cannot carry two properties with the same key, so every object
schema's property list has pairwise-distinct keys. -/
def wfS : Sch → Bool
  | .any => true
  | .unknown => true
  | .boolean => true
  | .number => true
  | .string => true
  | .null => true
  | .undefined => true
  | .bigint => true
  | .date => true
  | .symbol => true
  | .literal _ => true
  | .array s => wfS s
  | .json s => wfS s
  | .nullable s => wfS s
  | .optional s => wfS s
  | .map _ vsch => wfS vsch
  | .set s => wfS s
  | .tuple items => wfSList items
  | .object props => distinctKeys (props.map Prod.fst) && wfSProps props
  | .union ms => wfSList ms
  | .intersect ms => wfSList ms

/-- `wfS` over a schema list. -/
def wfSList : List Sch → Bool
  | [] => true
  | s :: ss => wfS s && wfSList ss

/-- `wfS` over a property map. -/
def wfSProps : List (String × Sch) → Bool
  | [] => true
  | (_, s) :: ps => wfS s && wfSProps ps

end

mutual

/-- Structural size of a schema, the induction measure of the proofs below. -/
def schSize : Sch → ℕ
  | .any => 1
  | .unknown => 1
  | .boolean => 1
  | .number => 1
  | .string => 1
  | .null => 1
  | .undefined => 1
  | .bigint => 1
  | .date => 1
  | .symbol => 1
  | .literal _ => 1
  | .array s => 1 + schSize s
  | .json s => 1 + schSize s
  | .nullable s => 1 + schSize s
  | .optional s => 1 + schSize s
  | .map _ vsch => 1 + schSize vsch
  | .set s => 1 + schSize s
  | .tuple items => 1 + schSizeList items
  | .object props => 1 + schSizeProps props
  | .union ms => 1 + schSizeList ms
  | .intersect ms => 1 + schSizeList ms

/-- Total size of a schema list. -/
def schSizeList : List Sch → ℕ
  | [] => 0
  | s :: ss => schSize s + schSizeList ss

/-- Total size of a property map. -/
def schSizeProps : List (String × Sch) → ℕ
  | [] => 0
  | (_, s) :: ps => schSize s + schSizeProps ps

end

/-! ### Supporting lemmas -/

theorem reException_ok {α : Type} {p : Option String} {r : Except JSError α} {a : α} :
    reException p r = .ok a ↔ r = .ok a := by
  cases r <;> simp [reException]

theorem schSize_pos (s : Sch) : 1 ≤ schSize s := by
  cases s <;> simp [schSize]

theorem schSizeList_le_of_mem {m : Sch} {ms : List Sch} (h : m ∈ ms) :
    schSize m ≤ schSizeList ms := by
  induction ms with
  | nil => cases h
  | cons s ss ih =>
      rcases List.mem_cons.mp h with h1 | h1
      · subst h1; simp [schSizeList]
      · have := ih h1
        simp [schSizeList]
        omega

theorem schSizeProps_le_of_mem {p : String × Sch} {props : List (String × Sch)}
    (h : p ∈ props) : schSize p.2 ≤ schSizeProps props := by
  induction props with
  | nil => cases h
  | cons q ps ih =>
      rcases List.mem_cons.mp h with h1 | h1
      · subst h1
        obtain ⟨k, s⟩ := p
        simp [schSizeProps]
      · have := ih h1
        obtain ⟨k2, s2⟩ := q
        simp [schSizeProps]
        omega

theorem except_error_bind {α β : Type} (e : JSError) (f : α → Except JSError β) :
    ((Except.error e : Except JSError α) >>= f) = .error e := rfl

theorem except_ok_bind {α β : Type} (a : α) (f : α → Except JSError β) :
    ((Except.ok a : Except JSError α) >>= f) = f a := rfl

theorem itemsGo_ok_pointwise {dec : JSValue → DRes} :
    ∀ {xs ys : List JSValue} {i : ℕ}, itemsGo dec xs i = .ok ys →
      ys.length = xs.length ∧
        ∀ j, j < xs.length → dec (xs.getD j vUndefined) = .ok (ys.getD j vUndefined) := by
  intro xs
  induction xs with
  | nil =>
      intro ys i h
      simp [itemsGo] at h
      subst h
      simp
  | cons x xs ih =>
      intro ys i h
      simp only [itemsGo] at h
      cases hy : reException (some (toString i)) (dec x) with
      | error e => rw [hy, except_error_bind] at h; simp at h
      | ok y =>
          rw [hy, except_ok_bind] at h
          cases hrest : itemsGo dec xs (i + 1) with
          | error e => rw [hrest, except_error_bind] at h; simp at h
          | ok ys2 =>
              rw [hrest, except_ok_bind] at h
              simp at h
              subst h
              obtain ⟨hlen, hpt⟩ := ih hrest
              refine ⟨by simp [hlen], ?_⟩
              intro j hj
              cases j with
              | zero => simpa using reException_ok.mp hy
              | succ j2 =>
                  simp only [List.getD_cons_succ]
                  exact hpt j2 (by simpa using hj)

theorem itemsGo_ok_mem {dec : JSValue → DRes} :
    ∀ {xs ys : List JSValue} {i : ℕ}, itemsGo dec xs i = .ok ys →
      ∀ y ∈ ys, ∃ x ∈ xs, dec x = .ok y := by
  intro xs
  induction xs with
  | nil =>
      intro ys i h
      simp [itemsGo] at h
      subst h
      simp
  | cons x xs ih =>
      intro ys i h
      simp only [itemsGo] at h
      cases hy : reException (some (toString i)) (dec x) with
      | error e => rw [hy, except_error_bind] at h; simp at h
      | ok y =>
          rw [hy, except_ok_bind] at h
          cases hrest : itemsGo dec xs (i + 1) with
          | error e => rw [hrest, except_error_bind] at h; simp at h
          | ok ys2 =>
              rw [hrest, except_ok_bind] at h
              simp at h
              subst h
              intro z hz
              rcases List.mem_cons.mp hz with h1 | h1
              · exact ⟨x, List.mem_cons_self .., by rw [h1]; exact reException_ok.mp hy⟩
              · obtain ⟨x2, hx2, hd2⟩ := ih hrest z h1
                exact ⟨x2, List.mem_cons_of_mem _ hx2, hd2⟩

theorem decodeTupleItems_ok_pointwise :
    ∀ {items : List Sch} {xs ys : List JSValue} {i : ℕ},
      decodeTupleItems items xs i = .ok ys →
        ys.length = items.length ∧
          ∀ j m, items.get? j = some m →
            ∃ y, ys.get? j = some y ∧ decodeS m (xs.getD (i + j) vUndefined) = .ok y := by
  intro items
  induction items with
  | nil =>
      intro xs ys i h
      simp [decodeTupleItems] at h
      subst h
      simp
  | cons m rest ih =>
      intro xs ys i h
      simp only [decodeTupleItems] at h
      cases hy : reException (some (toString i)) (decodeS m (xs.getD i vUndefined)) with
      | error e => rw [hy, except_error_bind] at h; simp at h
      | ok y =>
          rw [hy, except_ok_bind] at h
          cases hrest : decodeTupleItems rest xs (i + 1) with
          | error e => rw [hrest, except_error_bind] at h; simp at h
          | ok ys2 =>
              rw [hrest, except_ok_bind] at h
              simp at h
              subst h
              obtain ⟨hlen, hpt⟩ := ih hrest
              refine ⟨by simp [hlen], ?_⟩
              intro j m2 hj
              cases j with
              | zero =>
                  simp at hj
                  subst hj
                  exact ⟨y, rfl, by simpa using reException_ok.mp hy⟩
              | succ j2 =>
                  simp only [List.get?_cons_succ] at hj
                  obtain ⟨y2, hy2, hd2⟩ := hpt j2 m2 hj
                  refine ⟨y2, by simpa using hy2, ?_⟩
                  have : i + 1 + j2 = i + (j2 + 1) := by omega
                  rwa [this] at hd2

theorem listLookup_map_ne {V : Type} {d : List (String × V)} {k k2 : String} {v : V}
    (h : k2 ≠ k) :
    listLookup (d.map (fun p => if p.1 = k then (k, v) else p)) k2 = listLookup d k2 := by
  induction d with
  | nil => rfl
  | cons p rest ih =>
      obtain ⟨k1, v1⟩ := p
      simp only [List.map_cons]
      by_cases h1 : k1 = k
      · subst h1
        rw [if_pos rfl]
        simp only [listLookup, if_neg (Ne.symm h)]
        exact ih
      · rw [if_neg h1]
        simp only [listLookup]
        by_cases h2 : k1 = k2
        · simp [h2]
        · simp [h2, ih]

theorem listLookup_map_self {V : Type} {d : List (String × V)} {k : String} {v : V}
    (h : d.any (fun p => p.1 = k) = true) :
    listLookup (d.map (fun p => if p.1 = k then (k, v) else p)) k = some v := by
  induction d with
  | nil => simp at h
  | cons p rest ih =>
      obtain ⟨k1, v1⟩ := p
      simp only [List.map_cons]
      by_cases h1 : k1 = k
      · subst h1
        rw [if_pos rfl]
        simp [listLookup]
      · rw [if_neg h1]
        simp only [List.any_cons, Bool.or_eq_true, decide_eq_true_eq] at h
        rcases h with h | h
        · exact absurd h h1
        · simp only [listLookup, if_neg h1]
          exact ih h

theorem listLookup_none_of_not_any {V : Type} {d : List (String × V)} {k : String}
    (h : d.any (fun p => p.1 = k) = false) : listLookup d k = none := by
  induction d with
  | nil => rfl
  | cons p rest ih =>
      obtain ⟨k1, v1⟩ := p
      simp only [List.any_cons, Bool.or_eq_false_iff, decide_eq_false_iff_not] at h
      simp only [listLookup, if_neg h.1]
      exact ih h.2

theorem listLookup_append_single {V : Type} {d : List (String × V)} {k k2 : String} {v : V} :
    listLookup (d ++ [(k, v)]) k2 =
      match listLookup d k2 with
      | some w => some w
      | none => if k2 = k then some v else none := by
  induction d with
  | nil =>
      by_cases h : k2 = k
      · subst h; simp [listLookup]
      · simp [listLookup, Ne.symm h, h]
  | cons p rest ih =>
      obtain ⟨k1, v1⟩ := p
      by_cases h1 : k1 = k2 <;> simp [listLookup, h1, ih]

/-- The characterization of `{...obj, [key]: value}`: the overwritten key
maps to the new value and every other key is looked up in the original
list. -/
theorem listSpreadSet_lookup {V : Type} (d : List (String × V)) (k : String) (v : V)
    (k2 : String) :
    listLookup (listSpreadSet d k v) k2 = if k2 = k then some v else listLookup d k2 := by
  unfold listSpreadSet
  by_cases ha : d.any (fun p => p.1 = k) = true
  · rw [if_pos ha]
    by_cases h : k2 = k
    · subst h; simp [listLookup_map_self ha]
    · simp [h, listLookup_map_ne h]
  · rw [if_neg ha]
    rw [listLookup_append_single]
    by_cases h : k2 = k
    · subst h
      have ha2 : d.any (fun p => p.1 = k2) = false := by
        revert ha
        cases d.any (fun p => p.1 = k2) <;> simp
      rw [listLookup_none_of_not_any ha2]
    · simp only [if_neg h]
      cases listLookup d k2 <;> simp [h]

/-- Specialization to the schema definition store. -/
theorem defSpreadSet_lookup (d : List (String × DefVal)) (k : String) (v : DefVal)
    (k2 : String) :
    defLookup (defSpreadSet d k v) k2 = if k2 = k then some v else defLookup d k2 :=
  listSpreadSet_lookup d k v k2

theorem ruleS_lookup (S : SchemaRec) (c : Constraint) :
    defLookup (ruleS S c).defn "constraints" = some (.constraints (constraintsOf S ++ [c])) := by
  show defLookup (defSpreadSet S.defn "constraints" (.constraints (constraintsOf S ++ [c]))) "constraints" = _
  rw [defSpreadSet_lookup]
  simp

theorem constraintsOf_rule (S : SchemaRec) (c : Constraint) :
    constraintsOf (ruleS S c) = constraintsOf S ++ [c] := by
  unfold constraintsOf
  rw [ruleS_lookup]
  rfl

theorem constraintsOf_label (S : SchemaRec) (lab : String) :
    constraintsOf (labelS S lab) = constraintsOf S := by
  unfold constraintsOf
  rw [show defLookup (labelS S lab).defn "constraints" = defLookup S.defn "constraints" from by
        show defLookup (defSpreadSet S.defn "label" (.str lab)) "constraints" = _
        rw [defSpreadSet_lookup]
        simp]


/-! ### Claims -/

/-- C10: inside the array, tuple, object and map combinators, a child
`UnsupportedValueError` is re-thrown by `reException` as an
`UnsupportedTypeError` carrying the same offending value and the resolved
(prefixed) path — the error class is not preserved across nesting.  The first
conjunct is the general fact about `reException` (shared by decode and
encode); the remaining conjuncts evaluate the four combinators end to end on
a child `date()` schema whose decode throws `UnsupportedValueError`. -/
theorem c10_unsupported_value_becomes_type_error :
    (∀ (p q : Option String) (w : JSValue),
        reException p (Except.error (JSError.unsupportedValue w q) : DRes) =
          .error (.unsupportedType w (some (resolvePath [p, q]))))
    ∧ decodeS (.array .date) (vArr [vStr "bad"]) =
        .error (.unsupportedType (vStr "bad") (some "0"))
    ∧ decodeS (.tuple [.date]) (vArr [vStr "bad"]) =
        .error (.unsupportedType (vStr "bad") (some "0"))
    ∧ decodeS (.object [("a", .date)]) (vObj [("a", vStr "bad")]) =
        .error (.unsupportedType (vStr "bad") (some "a"))
    ∧ decodeS (.map .kstring .date) (vObj [("k", vStr "bad")]) =
        .error (.unsupportedType (vStr "bad") (some stringOfSchemaObject)) :=
  ⟨fun _ _ _ => rfl, rfl, rfl, rfl, rfl⟩

/-- C4 (code bug): MapSchema.decode prefixes child failures with
`String(this.key)` — the stringified key SCHEMA, i.e. `[object Object]` —
instead of the entry key, so decoding `{k: "bad"}` against
`map(string(), date())` reports path `[object Object]`, not `k`.  Moreover
the claim's own example reports `a.0`, not `a.1`: decode is fail-fast and
index 0 (the number `1`) is already undecodable by `date()`. -/
theorem c4_map_decode_path_uses_key_schema :
    decodeS (.map .kstring .date) (vObj [("k", vStr "bad")]) =
      .error (.unsupportedType (vStr "bad") (some "[object Object]"))
    ∧ decodeS (.object [("a", .array .date)]) (vObj [("a", vArr [vNum (val 1), vStr "bad"])]) =
        .error (.unsupportedType (vNum (val 1)) (some "a.0")) :=
  ⟨rfl, rfl⟩

/-- C5 (counterexample): number().decode CAN throw — on a symbol input the
fallback `Number(value)` raises a `TypeError`, which decode propagates. -/
theorem c5_counterexample_symbol_throws :
    decodeS .number (vSym none) = .error (.hostError "TypeError") := rfl

/-- C5 as amended: for every NON-SYMBOL input v, number().decode(v) never
throws and returns v itself when v is already a number, 0 when v is
undefined, NaN for the string "NaN", -NaN (the same NaN) for the string
"-NaN", and Number(v) otherwise; on symbols `Number` raises TypeError. -/
theorem c5_number_decode_total_on_non_symbols (v : JSValue) (h : isSymbolV v = false) :
    (∃ r, decodeS .number v = .ok r)
    ∧ (∀ n, v = vNum n → decodeS .number v = .ok (vNum n))
    ∧ (v = vUndefined → decodeS .number v = .ok (vNum (val 0)))
    ∧ (v = vStr "NaN" → decodeS .number v = .ok (vNum nan))
    ∧ (v = vStr "-NaN" → decodeS .number v = .ok (vNum (negNum nan)))
    ∧ (isNumberV v = false → v ≠ vUndefined → v ≠ vStr "NaN" → v ≠ vStr "-NaN" →
        ∃ n, toNumber v = some n ∧ decodeS .number v = .ok (vNum n)) := by
  have hd : ∀ w, decodeS .number w = decodeNumber w := fun _ => rfl
  refine ⟨?_, ?_, ?_, ?_, ?_, ?_⟩
  · cases v with
    | vSym d => simp [isSymbolV] at h
    | vStr s =>
        rw [hd]
        by_cases hs1 : s = "NaN"
        · subst hs1; exact ⟨_, rfl⟩
        · by_cases hs2 : s = "-NaN"
          · subst hs2; exact ⟨_, rfl⟩
          · refine ⟨vNum (strToNumber s), ?_⟩
            simp [decodeNumber, isNumberV, hs1, hs2]
    | _ => exact ⟨_, by rw [hd]; rfl⟩
  · rintro n rfl; rw [hd]; rfl
  · rintro rfl; rw [hd]; rfl
  · rintro rfl; rw [hd]; rfl
  · rintro rfl; rw [hd]; rfl
  · intro h1 h2 h3 h4
    cases v with
    | vSym d => simp [isSymbolV] at h
    | vNum n => simp [isNumberV] at h1
    | vUndefined => exact absurd rfl h2
    | vStr s =>
        have hs1 : s ≠ "NaN" := fun hh => h3 (by rw [hh])
        have hs2 : s ≠ "-NaN" := fun hh => h4 (by rw [hh])
        refine ⟨strToNumber s, rfl, ?_⟩
        rw [hd]
        simp [decodeNumber, isNumberV, hs1, hs2]
    | _ => exact ⟨_, rfl, by rw [hd]; rfl⟩

/-- C5 witness: the "NaN"-string and generic-string branches at concrete
inputs. -/
theorem c5_number_decode_witness :
    decodeS .number (vStr "NaN") = .ok (vNum nan)
    ∧ ∃ n, toNumber (vStr "7") = some n ∧ decodeS .number (vStr "7") = .ok (vNum n) :=
  ⟨(c5_number_decode_total_on_non_symbols (vStr "NaN") rfl).2.2.2.1 rfl,
   (c5_number_decode_total_on_non_symbols (vStr "7") rfl).2.2.2.2.2 rfl
     (by simp) (by simp) (by simp)⟩

/-- C7: array decode returns the input itself when it already satisfies the
array schema's `is`; decodes elementwise on other array inputs; wraps a
non-nullish scalar as a decoded one-element array; and maps `null`/
`undefined` to the empty array.  In particular
`array(string()).decode(5) = ["5"]` and `array(string()).decode(null) = []`. -/
theorem c7_array_decode_coercion (s : Sch) (v : JSValue) :
    (isS (.array s) v = true → decodeS (.array s) v = .ok v)
    ∧ (∀ xs, v = vArr xs → isS (.array s) v = false →
        ∀ r, decodeS (.array s) v = .ok r →
          ∃ ys, r = vArr ys ∧ ys.length = xs.length ∧
            ∀ j, j < xs.length → decodeS s (xs.getD j vUndefined) = .ok (ys.getD j vUndefined))
    ∧ (isArrayV v = false → v ≠ vNull → v ≠ vUndefined →
        ∀ r0, decodeS s v = .ok r0 → decodeS (.array s) v = .ok (vArr [r0]))
    ∧ (decodeS (.array s) vNull = .ok (vArr []) ∧ decodeS (.array s) vUndefined = .ok (vArr []))
    ∧ (decodeS (.array .string) (vNum (val 5)) = .ok (vArr [vStr "5"])
        ∧ decodeS (.array .string) vNull = .ok (vArr [])) := by
  refine ⟨?_, ?_, ?_, ⟨rfl, rfl⟩, ⟨rfl, rfl⟩⟩
  · intro h
    simp [decodeS, h]
  · intro xs hv his r hr
    subst hv
    simp only [decodeS, his, Bool.false_eq_true, if_false] at hr
    cases hit : itemsGo (fun x => decodeS s x) xs 0 with
    | error e => rw [hit] at hr; simp [Except.map] at hr
    | ok ys =>
        rw [hit] at hr
        simp [Except.map] at hr
        obtain ⟨hlen, hpt⟩ := itemsGo_ok_pointwise hit
        exact ⟨ys, hr.symm, hlen, hpt⟩
  · intro hna hn hu r0 h0
    have his : isS (.array s) v = false := by
      cases v <;> simp [isS, isArrayV] at hna ⊢
    cases v with
    | vArr xs => simp [isArrayV] at hna
    | vNull => exact absurd rfl hn
    | vUndefined => exact absurd rfl hu
    | _ =>
        simp [decodeS, his, itemsGo, h0, reException, Except.map, except_ok_bind]

/-- C6 (counterexample): when the array input already satisfies the tuple's
`is` — which never inspects indexes beyond the declared arity — decode
returns it UNCHANGED, keeping the excess elements: the arity-1 tuple
`tuple(number())` decodes `[1, 2, 3]` to the 3-element array `[1, 2, 3]`. -/
theorem c6_counterexample_passthrough_keeps_excess :
    decodeS (.tuple [.number]) (vArr [vNum (val 1), vNum (val 2), vNum (val 3)]) =
      .ok (vArr [vNum (val 1), vNum (val 2), vNum (val 3)])
    ∧ List.length [vNum (val 1), vNum (val 2), vNum (val 3)] = 3
    ∧ List.length [Sch.number] = 1 :=
  ⟨rfl, rfl, rfl⟩

/-- C6 as amended: when an array input already satisfies the tuple's `is` it
is returned unchanged (excess elements are kept); every other array input
decodes to exactly the declared arity, dropping elements at indexes ≥ n; and
every non-array input throws `UnsupportedTypeError`. -/
theorem c6_tuple_decode_arity (items : List Sch) (v : JSValue) :
    (isS (.tuple items) v = true → decodeS (.tuple items) v = .ok v)
    ∧ (∀ xs, v = vArr xs → isS (.tuple items) v = false →
        ∀ r, decodeS (.tuple items) v = .ok r → ∃ ys, r = vArr ys ∧ ys.length = items.length)
    ∧ (isArrayV v = false → decodeS (.tuple items) v = .error (.unsupportedType v none)) := by
  refine ⟨?_, ?_, ?_⟩
  · intro h
    simp [decodeS, h]
  · intro xs hv his r hr
    subst hv
    simp only [decodeS, his, Bool.false_eq_true, if_false] at hr
    cases hit : decodeTupleItems items xs 0 with
    | error e => rw [hit] at hr; simp [Except.map] at hr
    | ok ys =>
        rw [hit] at hr
        simp [Except.map] at hr
        exact ⟨ys, hr.symm, (decodeTupleItems_ok_pointwise hit).1⟩
  · intro hna
    cases v <;> simp [decodeS, isS, isArrayV] at hna ⊢

/-- C6 witness: the drop branch at `tuple(string())` on `[1, 2]` (two input
elements, one-element result) and the non-array branch at input `1`. -/
theorem c6_tuple_decode_witness :
    (∃ ys, (vArr [vStr "1"] : JSValue) = vArr ys ∧ ys.length = List.length [Sch.string])
    ∧ decodeS (.tuple [.string]) (vNum (val 1)) = .error (.unsupportedType (vNum (val 1)) none) :=
  ⟨(c6_tuple_decode_arity [.string] (vArr [vNum (val 1), vNum (val 2)])).2.1
      [vNum (val 1), vNum (val 2)] rfl rfl (vArr [vStr "1"]) rfl,
   (c6_tuple_decode_arity [.string] (vNum (val 1))).2.2 rfl⟩

/-- C7 witness: the passthrough branch on a valid `string[]` input and the
elementwise branch on `[1]`. -/
theorem c7_array_decode_witness :
    decodeS (.array .string) (vArr [vStr "a"]) = .ok (vArr [vStr "a"])
    ∧ ∃ ys, (vArr [vStr "1"] : JSValue) = vArr ys ∧ ys.length = [vNum (val 1)].length ∧
        ∀ j, j < [vNum (val 1)].length →
          decodeS .string ([vNum (val 1)].getD j vUndefined) = .ok (ys.getD j vUndefined) :=
  ⟨(c7_array_decode_coercion .string (vArr [vStr "a"])).1 rfl,
   (c7_array_decode_coercion .string (vArr [vNum (val 1)])).2.1 [vNum (val 1)] rfl rfl
     (vArr [vStr "1"]) rfl⟩

/-- C8: tryDecode returns success with the decoded value when decode does
not throw; surfaces exactly the violations of a thrown `ViolationError`
(both subclasses); and wraps any other thrown error in a single violation of
type "decode" carrying the original error in its args.  tryEncode behaves
symmetrically with type "encode". -/
theorem c8_try_wrappers (s : Sch) (v : JSValue) :
    ((∀ r, decodeS s v = .ok r → tryDecode s v = .success r)
      ∧ (∀ w p, decodeS s v = .error (.unsupportedType w p) →
          tryDecode s v = .failure (violationsOfError (.unsupportedType w p)))
      ∧ (∀ w p, decodeS s v = .error (.unsupportedValue w p) →
          tryDecode s v = .failure (violationsOfError (.unsupportedValue w p)))
      ∧ (∀ name, decodeS s v = .error (.hostError name) →
          tryDecode s v = .failure [{ type := "decode"
                                      message := some "An error has occurred during decoding"
                                      args := .error (.hostError name)
                                      path := none }]))
    ∧ ((∀ r, encodeS s v = .ok r → tryEncode s v = .success r)
      ∧ (∀ w p, encodeS s v = .error (.unsupportedType w p) →
          tryEncode s v = .failure (violationsOfError (.unsupportedType w p)))
      ∧ (∀ w p, encodeS s v = .error (.unsupportedValue w p) →
          tryEncode s v = .failure (violationsOfError (.unsupportedValue w p)))
      ∧ (∀ name, encodeS s v = .error (.hostError name) →
          tryEncode s v = .failure [{ type := "encode"
                                      message := some "An error has occurred during encoding"
                                      args := .error (.hostError name)
                                      path := none }])) := by
  refine ⟨⟨?_, ?_, ?_, ?_⟩, ⟨?_, ?_, ?_, ?_⟩⟩ <;> intro a b <;>
    first
      | (intro h; simp [tryDecode, tryEncode, h, isViolationError])
      | (simp [tryDecode, tryEncode, b, isViolationError])

/-- C8 witness: the success, violation-error and host-error branches at
concrete schemas and inputs. -/
theorem c8_try_wrappers_witness :
    tryDecode .null vNull = .success vNull
    ∧ tryDecode .null (vNum (val 7)) =
        .failure (violationsOfError (.unsupportedType (vNum (val 7)) none))
    ∧ tryDecode .number (vSym none) =
        .failure [{ type := "decode"
                    message := some "An error has occurred during decoding"
                    args := .error (.hostError "TypeError")
                    path := none }] :=
  ⟨(c8_try_wrappers .null vNull).1.1 vNull rfl,
   (c8_try_wrappers .null (vNum (val 7))).1.2.1 (vNum (val 7)) none rfl,
   (c8_try_wrappers .number (vSym none)).1.2.2.2 "TypeError" rfl⟩

/-- C9: the immutable-builder contract.  `set` yields an instance of the same
concrete subclass (the `kind` tag is carried through unchanged) whose
definition copies every existing entry and overwrites exactly one key; `rule`
(and every fluent builder on top of it, e.g. `min` and `label`) is such a
`set`, and the original instance's constraint list — hence its `check`,
`test` and `validate` behavior — is a function of the original definition
only, which `set` never writes to (it builds a fresh spread copy). -/
theorem c9_immutable_builder_set (S : SchemaRec) (c : Constraint) (k : String) (dv : DefVal)
    (lab : String) (lim : ℚ) (v : JSValue) :
    ((builderSet S k dv).kind = S.kind)
    ∧ (defLookup (builderSet S k dv).defn k = some dv)
    ∧ (∀ k2, k2 ≠ k → defLookup (builderSet S k dv).defn k2 = defLookup S.defn k2)
    ∧ ((ruleS S c).kind = S.kind)
    ∧ (checkS (ruleS S c) v =
        checkS S v ++
          (if c.test v then []
           else [{ type := c.type, message := c.message, args := c.args }]))
    ∧ ((labelS S lab).kind = S.kind ∧ checkS (labelS S lab) v = checkS S v
        ∧ testS (labelS S lab) v = testS S v)
    ∧ ((numberMin S lim).kind = S.kind) := by
  refine ⟨rfl, ?_, ?_, rfl, ?_, ⟨rfl, ?_, ?_⟩, rfl⟩
  · show defLookup (defSpreadSet S.defn k dv) k = some dv
    rw [defSpreadSet_lookup]
    simp
  · intro k2 h
    show defLookup (defSpreadSet S.defn k dv) k2 = defLookup S.defn k2
    rw [defSpreadSet_lookup]
    simp [h]
  · unfold checkS
    rw [constraintsOf_rule, List.filter_append, List.map_append]
    by_cases hc : c.test v <;> simp [hc]
  · unfold checkS
    rw [constraintsOf_label]
  · unfold testS checkS
    rw [constraintsOf_label]

/-- C9 witness: a concrete `number`-kinded record with a concrete min-style
constraint. -/
theorem c9_immutable_builder_witness :
    (ruleS ⟨"number", []⟩
        { type := "number.min", message := none, args := .noArgs,
          test := fun w => match w with | vNum (val q) => decide (0 ≤ q) | _ => false }).kind
      = "number"
    ∧ checkS
        (ruleS ⟨"number", []⟩
          { type := "number.min", message := none, args := .noArgs,
            test := fun w => match w with | vNum (val q) => decide (0 ≤ q) | _ => false })
        (vNum (val 1))
      = checkS ⟨"number", []⟩ (vNum (val 1)) ++
          (if (match (vNum (val 1) : JSValue) with
                | vNum (val q) => decide (0 ≤ q)
                | _ => false) = true then []
           else [{ type := "number.min", message := none, args := .noArgs }])
    ∧ defLookup (builderSet ⟨"number", []⟩ "label" (.str "x")).defn "name" =
        defLookup (⟨"number", []⟩ : SchemaRec).defn "name" :=
  ⟨(c9_immutable_builder_set ⟨"number", []⟩
      { type := "number.min", message := none, args := .noArgs,
        test := fun w => match w with | vNum (val q) => decide (0 ≤ q) | _ => false }
      "label" (.str "x") "x" 0 (vNum (val 1))).2.2.2.1,
   (c9_immutable_builder_set ⟨"number", []⟩
      { type := "number.min", message := none, args := .noArgs,
        test := fun w => match w with | vNum (val q) => decide (0 ≤ q) | _ => false }
      "label" (.str "x") "x" 0 (vNum (val 1))).2.2.2.2.1,
   (c9_immutable_builder_set ⟨"number", []⟩
      { type := "number.min", message := none, args := .noArgs,
        test := fun w => match w with | vNum (val q) => decide (0 ≤ q) | _ => false }
      "label" (.str "x") "x" 0 (vNum (val 1))).2.2.1 "name" (by decide)⟩

theorem findIsMember_isSome_of_mem {ms : List Sch} {m : Sch} {v : JSValue}
    (hm : m ∈ ms) (h : isS m v = true) : (findIsMember ms v).isSome = true := by
  induction ms with
  | nil => cases hm
  | cons s ss ih =>
      rcases List.mem_cons.mp hm with h1 | h1
      · subst h1
        simp [findIsMember, h]
      · by_cases hs : isS s v = true
        · simp [findIsMember, hs]
        · simp only [findIsMember, Bool.not_eq_true] at hs ⊢
          rw [hs]
          simpa using ih h1

theorem findIsMember_none_of_all {ms : List Sch} {v : JSValue}
    (h : ∀ m ∈ ms, isS m v = false) : findIsMember ms v = none := by
  induction ms with
  | nil => rfl
  | cons s ss ih =>
      have hs := h s (List.mem_cons_self ..)
      simp only [findIsMember, hs]
      exact ih (fun m hm => h m (List.mem_cons_of_mem _ hm))

theorem decodeUnionFirstPass_none_of_all {ms : List Sch} {v : JSValue}
    (h : ∀ m ∈ ms, isS m v = false) : decodeUnionFirstPass ms v = none := by
  induction ms with
  | nil => rfl
  | cons s ss ih =>
      have hs := h s (List.mem_cons_self ..)
      simp only [decodeUnionFirstPass, hs]
      exact ih (fun m hm => h m (List.mem_cons_of_mem _ hm))

theorem decodeUnionBrute_all_error {ms : List Sch} {v : JSValue}
    (h : ∀ m ∈ ms, ∃ e, decodeS m v = .error e) :
    decodeUnionBrute ms v = .error (.unsupportedType v none) := by
  induction ms with
  | nil => rfl
  | cons s ss ih =>
      obtain ⟨e, he⟩ := h s (List.mem_cons_self ..)
      simp only [decodeUnionBrute, he]
      exact ih (fun m hm => h m (List.mem_cons_of_mem _ hm))

theorem decodeUnionBrute_first_ok {v : JSValue} :
    ∀ (pre : List Sch) (m : Sch) (post : List Sch) (r : JSValue),
      (∀ m2 ∈ pre, ∃ e, decodeS m2 v = .error e) → decodeS m v = .ok r →
        decodeUnionBrute (pre ++ m :: post) v = .ok r := by
  intro pre
  induction pre with
  | nil =>
      intro m post r _ hm
      simp [decodeUnionBrute, hm]
  | cons s ss ih =>
      intro m post r hpre hm
      obtain ⟨e, he⟩ := hpre s (List.mem_cons_self ..)
      simp only [List.cons_append, decodeUnionBrute, he]
      exact ih m post r (fun m2 hm2 => hpre m2 (List.mem_cons_of_mem _ hm2)) hm

/-- C3 (counterexample): when some member's `is` matches, union decode does
NOT return that member's decode — it returns the raw input unchanged.  For
`union(json(string()), number())` on input `"\"a\""` the first member's `is`
matches (a JSON schema's `is` is the inner schema's), yet union decode
returns `"\"a\""` while that member's decode returns `"a"`. -/
theorem c3_counterexample_raw_passthrough :
    decodeS (.union [.json .string, .number]) (vStr "\"a\"") = .ok (vStr "\"a\"")
    ∧ isS (.json .string) (vStr "\"a\"") = true
    ∧ decodeS (.json .string) (vStr "\"a\"") = .ok (vStr "a")
    ∧ (vStr "\"a\"" : JSValue) ≠ vStr "a" :=
  ⟨rfl, rfl, rfl, fun h => absurd (JSValue.vStr.inj h) (by decide)⟩

/-- C3 as amended: if some member's `is` accepts the input, union decode
returns the input unchanged (the member-decode loop after the `is` shortcut
is dead code); otherwise each member's decode is attempted in declared order
and the first non-throwing result is returned; when all throw, decode throws
`UnsupportedTypeError`.  `union(number(), string())` decodes `1` to `1` and
`"hello"` to `"hello"`. -/
theorem c3_union_decode_order (ms : List Sch) (v : JSValue) (hlen : 2 ≤ ms.length) :
    ((∃ m ∈ ms, isS m v = true) → decodeS (.union ms) v = .ok v)
    ∧ ((∀ m ∈ ms, isS m v = false) →
        ((∀ pre m post r, ms = pre ++ m :: post →
            (∀ m2 ∈ pre, ∃ e, decodeS m2 v = .error e) →
            decodeS m v = .ok r → decodeS (.union ms) v = .ok r)
          ∧ ((∀ m ∈ ms, ∃ e, decodeS m v = .error e) →
              decodeS (.union ms) v = .error (.unsupportedType v none))))
    ∧ (decodeS (.union [.number, .string]) (vNum (val 1)) = .ok (vNum (val 1))
        ∧ decodeS (.union [.number, .string]) (vStr "hello") = .ok (vStr "hello")) := by
  refine ⟨?_, ?_, ⟨rfl, rfl⟩⟩
  · rintro ⟨m, hm, hv⟩
    have : isS (.union ms) v = true := by
      show (findIsMember ms v).isSome = true
      exact findIsMember_isSome_of_mem hm hv
    simp [decodeS, this]
  · intro hall
    have his : isS (.union ms) v = false := by
      show (findIsMember ms v).isSome = false
      rw [findIsMember_none_of_all hall]
      rfl
    have hfp := decodeUnionFirstPass_none_of_all hall
    constructor
    · intro pre m post r hsplit hpre hm
      simp only [decodeS, his, Bool.false_eq_true, if_false, hfp]
      rw [hsplit]
      exact decodeUnionBrute_first_ok pre m post r hpre hm
    · intro herr
      simp only [decodeS, his, Bool.false_eq_true, if_false, hfp]
      exact decodeUnionBrute_all_error herr

/-- C3 witness: the raw-passthrough branch, the first-success branch and the
all-throw branch at concrete unions and inputs. -/
theorem c3_union_decode_witness :
    decodeS (.union [.number, .string]) (vNum (val 1)) = .ok (vNum (val 1))
    ∧ decodeS (.union [.null, .string]) (vNum (val 7)) = .ok (vStr "7")
    ∧ decodeS (.union [.null, .undefined]) (vBool true) =
        .error (.unsupportedType (vBool true) none) :=
  ⟨(c3_union_decode_order [.number, .string] (vNum (val 1)) (by decide)).1
      ⟨.number, by simp, rfl⟩,
   ((c3_union_decode_order [.null, .string] (vNum (val 7)) (by decide)).2.1
      (by intro m hm; fin_cases hm <;> rfl)).1 [.null] .string [] (vStr "7") rfl
      (by intro m2 hm2; fin_cases hm2 <;> exact ⟨_, rfl⟩) rfl,
   ((c3_union_decode_order [.null, .undefined] (vBool true) (by decide)).2.1
      (by intro m hm; fin_cases hm <;> rfl)).2
      (by intro m hm; fin_cases hm <;> exact ⟨_, rfl⟩)⟩

/-! ### Object merge lemmas (intersect precedence) -/

theorem any_fst_eq_contains {V : Type} (l : List (String × V)) (k : String) :
    l.any (fun p => p.1 = k) = (l.map Prod.fst).contains k := by
  induction l with
  | nil => rfl
  | cons p rest ih =>
      simp only [List.any_cons, List.map_cons, List.contains_cons, ih]
      congr 1
      simp [eq_comm]
      rfl

theorem keys_setProp (l : List (String × JSValue)) (k : String) (v : JSValue) :
    (setPropJS l k v).map Prod.fst =
      if l.any (fun p => p.1 = k) then l.map Prod.fst else l.map Prod.fst ++ [k] := by
  unfold setPropJS listSpreadSet
  by_cases ha : l.any (fun p => p.1 = k) = true
  · rw [if_pos ha, if_pos ha, List.map_map]
    apply List.map_congr_left
    intro p _
    by_cases hp : p.1 = k <;> simp [hp]
  · rw [if_neg ha, if_neg ha, List.map_append]
    rfl

theorem contains_append_one (ks : List String) (k1 k : String) :
    (ks ++ [k]).contains k1 = (ks.contains k1 || (k1 == k)) := by
  induction ks with
  | nil =>
      simp only [List.nil_append, List.contains_cons, List.contains_nil, Bool.or_false,
        Bool.false_or]
  | cons a rest ih => simp only [List.cons_append, List.contains_cons, ih, Bool.or_assoc]

theorem distinctKeys_append_single {ks : List String} {k : String}
    (h : distinctKeys ks = true) (hc : ks.contains k = false) :
    distinctKeys (ks ++ [k]) = true := by
  induction ks with
  | nil => rfl
  | cons k1 rest ih =>
      simp only [List.contains_cons, Bool.or_eq_false_iff] at hc
      simp only [distinctKeys, Bool.and_eq_true, Bool.not_eq_true'] at h
      simp only [List.cons_append, distinctKeys, Bool.and_eq_true, Bool.not_eq_true']
      refine ⟨?_, ih h.2 hc.2⟩
      show (rest ++ [k]).contains k1 = false
      rw [contains_append_one, h.1]
      have hkk : (k1 == k) = false := by
        cases hbe : (k1 == k) with
        | false => rfl
        | true =>
            have hk1 : k1 = k := eq_of_beq hbe
            subst hk1
            exact absurd hc.1 (by simp)
      simp [hkk]

theorem distinct_setProp {l : List (String × JSValue)} {k : String} {v : JSValue}
    (h : distinctKeys (l.map Prod.fst) = true) :
    distinctKeys ((setPropJS l k v).map Prod.fst) = true := by
  rw [keys_setProp]
  by_cases ha : l.any (fun p => p.1 = k) = true
  · rw [if_pos ha]; exact h
  · rw [if_neg ha]
    apply distinctKeys_append_single h
    rw [← any_fst_eq_contains]
    revert ha
    cases l.any (fun p => p.1 = k) <;> simp

theorem distinct_spreadInto {t : List (String × JSValue)}
    (ht : distinctKeys (t.map Prod.fst) = true) :
    ∀ a, distinctKeys ((spreadInto t a).map Prod.fst) = true := by
  intro a
  induction a generalizing t with
  | nil => exact ht
  | cons p rest ih =>
      obtain ⟨k1, v1⟩ := p
      exact ih (distinct_setProp ht)

theorem listLookup_spreadInto {a : List (String × JSValue)} {k : String}
    (ha : distinctKeys (a.map Prod.fst) = true) :
    ∀ t, listLookup (spreadInto t a) k =
      match listLookup a k with
      | some w => some w
      | none => listLookup t k := by
  induction a with
  | nil => intro t; rfl
  | cons p rest ih =>
      obtain ⟨k1, v1⟩ := p
      intro t
      simp only [List.map_cons, distinctKeys, Bool.and_eq_true, Bool.not_eq_true'] at ha
      have step : spreadInto t ((k1, v1) :: rest) = spreadInto (setPropJS t k1 v1) rest := rfl
      rw [step, ih ha.2]
      have hset : listLookup (setPropJS t k1 v1) k =
          if k = k1 then some v1 else listLookup t k := listSpreadSet_lookup t k1 v1 k
      by_cases hk : k1 = k
      · subst hk
        have : listLookup rest k1 = none := by
          apply listLookup_none_of_not_any
          rw [any_fst_eq_contains]
          exact ha.1
        rw [this, hset, if_pos rfl]
        simp [listLookup]
      · simp only [listLookup, if_neg hk]
        cases listLookup rest k with
        | some w => rfl
        | none =>
            rw [hset, if_neg (fun hh => hk hh.symm)]

theorem objLookup_merge {base target : JSValue} {k : String}
    (hb : distinctKeys ((objPropsOf base).map Prod.fst) = true) :
    objLookup (mergeJS base target) k =
      match objLookup base k with
      | some w => some w
      | none => objLookup target k := by
  show listLookup (spreadInto (objPropsOf target) (objPropsOf base)) k = _
  rw [listLookup_spreadInto hb]
  rfl

theorem distinct_merge {base target : JSValue}
    (ht : distinctKeys ((objPropsOf target).map Prod.fst) = true) :
    distinctKeys ((objPropsOf (mergeJS base target)).map Prod.fst) = true :=
  distinct_spreadInto ht _

theorem foldMerge_lookup (objs : List JSValue)
    (hobjs : ∀ o ∈ objs, distinctKeys ((objPropsOf o).map Prod.fst) = true) :
    ∀ (acc : JSValue), distinctKeys ((objPropsOf acc).map Prod.fst) = true →
      ∀ k, objLookup (objs.foldl mergeJS acc) k =
        match objLookup acc k with
        | some w => some w
        | none => objs.findSome? (fun o => objLookup o k) := by
  induction objs with
  | nil =>
      intro acc _ k
      simp only [List.foldl_nil, List.findSome?_nil]
      cases objLookup acc k <;> rfl
  | cons o os ih =>
      intro acc hacc k
      have ho := hobjs o (List.mem_cons_self ..)
      have hrec := ih (fun o2 ho2 => hobjs o2 (List.mem_cons_of_mem _ ho2))
        (mergeJS acc o) (distinct_merge ho) k
      simp only [List.foldl_cons]
      rw [hrec, objLookup_merge hacc]
      simp only [List.findSome?_cons]
      cases objLookup acc k with
      | some w => rfl
      | none => cases objLookup o k with
          | some w => rfl
          | none => rfl

/-- C2 (counterexample): intersect decode does not always apply every
member's decode and fold the object-typed results: when the intersect's own
`is` accepts the input, decode returns it unchanged.
`intersect(number(), number()).decode(5)` returns `5`, while the claimed
algorithm would keep no object-typed result and return `\x7b\x7d`. -/
theorem c2_counterexample_passthrough_skips_merge :
    decodeS (.intersect [.number, .number]) (vNum (val 5)) = .ok (vNum (val 5))
    ∧ intersectDecodeSpec [.number, .number] (vNum (val 5)) = .ok (vObj [])
    ∧ (vNum (val 5) : JSValue) ≠ vObj [] :=
  ⟨rfl, rfl, fun h => JSValue.noConfusion h⟩

/-- C2 as amended: for an intersect over ≥2 members, when the intersect's
own `is` rejects the input (otherwise decode is the identity), decode applies
every member's decode to the input independently, keeps only the object-typed
results and folds them into one object; encode does the same
unconditionally.  In the fold, on key collision the earlier member's value is
kept: under JavaScript's guarantee that each produced object has
duplicate-free keys, looking up any key in the fold equals the first
member-result that carries it.  The claim's example decodes as stated. -/
theorem c2_intersect_merge (ms : List Sch) (v : JSValue)
    (hlen : 2 ≤ ms.length) (hnis : isS (.intersect ms) v = false) :
    decodeS (.intersect ms) v = intersectDecodeSpec ms v
    ∧ encodeS (.intersect ms) v
        = (encodeMembers ms v).map (fun rs => (rs.filter typeofObject).foldl mergeJS (vObj []))
    ∧ (∀ rs, decodeMembers ms v = .ok rs →
        (∀ o ∈ rs.filter typeofObject, distinctKeys ((objPropsOf o).map Prod.fst) = true) →
        ∀ k, objLookup ((rs.filter typeofObject).foldl mergeJS (vObj [])) k
          = (rs.filter typeofObject).findSome? (fun o => objLookup o k))
    ∧ decodeS (.intersect [.object [("id", .number)], .object [("name", .string)]])
        (vObj [("id", vStr "1"), ("name", vStr "Adam")])
        = .ok (vObj [("id", vNum (val 1)), ("name", vStr "Adam")]) := by
  refine ⟨?_, rfl, ?_, by with_unfolding_all rfl⟩
  · simp only [decodeS, hnis, Bool.false_eq_true, if_false]
    rfl
  · intro rs hrs hdist k
    exact foldMerge_lookup (rs.filter typeofObject) hdist (vObj []) rfl k

/-- C2 witness: the amended theorem applied to the claim's own example —
both hypotheses hold there and the decode result is the claimed object with
`id` decoded by the first member. -/
theorem c2_intersect_merge_witness :
    decodeS (.intersect [.object [("id", .number)], .object [("name", .string)]])
        (vObj [("id", vStr "1"), ("name", vStr "Adam")])
      = .ok (vObj [("id", vNum (val 1)), ("name", vStr "Adam")]) :=
  (c2_intersect_merge [.object [("id", .number)], .object [("name", .string)]]
      (vObj [("id", vStr "1"), ("name", vStr "Adam")])
      (by decide) rfl).2.2.2

/-! ### Decode soundness helpers (decode produces a value of the schema's type) -/

theorem except_map_ok {α β : Type} {f : α → β} {e : Except JSError α} {b : β}
    (h : e.map f = .ok b) : ∃ a, e = .ok a ∧ b = f a := by
  cases e with
  | error e2 => simp [Except.map] at h
  | ok a => exact ⟨a, rfl, by simpa [Except.map] using h.symm⟩

theorem decodeBoolean_is {v r : JSValue} (h : decodeBoolean v = .ok r) :
    isBooleanV r = true := by
  injection h with h
  subst h
  rfl

theorem decodeNumber_is {v r : JSValue} (h : decodeNumber v = .ok r) :
    isNumberV r = true := by
  unfold decodeNumber at h
  by_cases hn : isNumberV v = true
  · rw [if_pos hn] at h
    injection h with h
    subst h
    exact hn
  · rw [if_neg hn] at h
    split at h
    · injection h with h; subst h; rfl
    · split at h
      · injection h with h; subst h; rfl
      · split at h
        · injection h with h; subst h; rfl
        · injection h with h; subst h; rfl
    · split at h
      · injection h with h; subst h; rfl
      · cases h

theorem decodeString_is {v r : JSValue} (h : decodeString v = .ok r) :
    isStringV r = true := by
  injection h with h
  subst h
  rfl

theorem decodeNull_is {v r : JSValue} (h : decodeNull v = .ok r) :
    isNullV r = true := by
  cases v <;> simp [decodeNull] at h
  subst h
  rfl

theorem decodeUndefined_is {v r : JSValue} (h : decodeUndefined v = .ok r) :
    isUndefinedV r = true := by
  cases v <;> simp [decodeUndefined] at h
  subst h
  rfl

theorem decodeBigInt_is {v r : JSValue} (h : decodeBigInt v = .ok r) :
    isBigIntV r = true := by
  unfold decodeBigInt at h
  by_cases hb : isBigIntV v = true
  · rw [if_pos hb] at h
    injection h with h
    subst h
    exact hb
  · rw [if_neg hb] at h
    by_cases hz : bigintZeroInput v = true
    · rw [if_pos hz] at h; injection h with h; subst h; rfl
    · rw [if_neg hz] at h
      split at h
      · split at h
        · injection h with h; subst h; rfl
        · cases h
      · split at h
        · injection h with h; subst h; rfl
        · cases h
      · injection h with h; subst h; rfl
      · cases h

theorem decodeDate_is {v r : JSValue} (h : decodeDate v = .ok r) :
    isDateV r = true := by
  unfold decodeDate at h
  split at h
  · injection h with h; subst h; rfl
  · split at h
    · cases h
    · injection h with h; subst h; rfl
  · cases h

theorem decodeSymbol_is {v r : JSValue} (h : decodeSymbol v = .ok r) :
    isSymbolV r = true := by
  unfold decodeSymbol at h
  split at h
  · injection h with h; subst h; rfl
  · injection h with h; subst h; rfl
  · injection h with h; subst h; rfl
  · injection h with h; subst h; rfl
  · cases h

theorem keyDecode_is {k : KeySch} {v r : JSValue} (h : keyDecode k v = .ok r) :
    keyIs k r = true := by
  cases k with
  | kstring => exact decodeString_is h
  | knumber => exact decodeNumber_is h
  | ksymbol => exact decodeSymbol_is h

theorem arrayFindGo_of_all {p : JSValue → Bool} :
    ∀ {xs : List JSValue}, (∀ x ∈ xs, p x = true) → arrayFindGo p xs = true := by
  intro xs
  induction xs with
  | nil => intro _; rfl
  | cons x rest ih =>
      intro hall
      have hx := hall x (List.mem_cons_self ..)
      simp only [arrayFindGo, hx, if_true]
      exact ih (fun y hy => hall y (List.mem_cons_of_mem _ hy))

theorem mapEntriesGoIs_of_all {pk pv : JSValue → Bool} :
    ∀ {es : List (JSValue × JSValue)}, (∀ q ∈ es, pk q.1 = true ∧ pv q.2 = true) →
      mapEntriesGoIs pk pv es = true := by
  intro es
  induction es with
  | nil => intro _; rfl
  | cons q rest ih =>
      intro hall
      obtain ⟨a, b⟩ := q
      have hq := hall (a, b) (List.mem_cons_self ..)
      simp only [mapEntriesGoIs, hq.1, hq.2, Bool.true_and]
      exact ih (fun q2 hq2 => hall q2 (List.mem_cons_of_mem _ hq2))

theorem tupleCheck_of_pointwise :
    ∀ (items : List Sch) (zs : List JSValue) (i : ℕ),
      (∀ j m, items.get? j = some m → isS m (zs.getD (i + j) vUndefined) = true) →
      tupleCheck items zs i = true := by
  intro items
  induction items with
  | nil => intro zs i _; rfl
  | cons m rest ih =>
      intro zs i hall
      have h0 := hall 0 m rfl
      simp only [Nat.add_zero] at h0
      simp only [tupleCheck, h0, Bool.true_and]
      apply ih
      intro j m2 hj
      have := hall (j + 1) m2 (by simpa using hj)
      rwa [show i + (j + 1) = i + 1 + j by omega] at this

theorem getD_of_get? {α : Type} :
    ∀ (l : List α) (j : ℕ) (y d : α), l.get? j = some y → l.getD j d = y := by
  intro l
  induction l with
  | nil => intro j y d h; cases h
  | cons a rest ih =>
      intro j y d h
      cases j with
      | zero => simp at h; simp [h]
      | succ j2 =>
          simp only [List.get?_cons_succ] at h
          simpa using ih j2 y d h

theorem plainItemsGo_ok_mem {dec : JSValue → DRes} :
    ∀ {xs ys : List JSValue}, plainItemsGo dec xs = .ok ys →
      ∀ y ∈ ys, ∃ x ∈ xs, dec x = .ok y := by
  intro xs
  induction xs with
  | nil =>
      intro ys h
      simp [plainItemsGo] at h
      subst h
      simp
  | cons x rest ih =>
      intro ys h
      simp only [plainItemsGo] at h
      cases hy : dec x with
      | error e => rw [hy, except_error_bind] at h; simp at h
      | ok y =>
          rw [hy, except_ok_bind] at h
          cases hrest : plainItemsGo dec rest with
          | error e => rw [hrest, except_error_bind] at h; simp at h
          | ok ys2 =>
              rw [hrest, except_ok_bind] at h
              simp at h
              subst h
              intro z hz
              rcases List.mem_cons.mp hz with h1 | h1
              · exact ⟨x, List.mem_cons_self .., by rw [h1]; exact hy⟩
              · obtain ⟨x2, hx2, hd2⟩ := ih hrest z h1
                exact ⟨x2, List.mem_cons_of_mem _ hx2, hd2⟩

theorem setDedup_pred {P : JSValue → Prop} :
    ∀ (l acc : List JSValue), (∀ x ∈ acc, P x) → (∀ x ∈ l, P x) →
      ∀ x ∈ l.foldl (fun acc x => if acc.any (fun y => jsEq y x) then acc else acc ++ [x]) acc,
        P x := by
  intro l
  induction l with
  | nil => intro acc hacc _ x hx; exact hacc x hx
  | cons a rest ih =>
      intro acc hacc hl x hx
      simp only [List.foldl_cons] at hx
      refine ih _ ?_ (fun y hy => hl y (List.mem_cons_of_mem _ hy)) x hx
      intro y hy
      by_cases hc : acc.any (fun z => jsEq z a) = true
      · rw [if_pos hc] at hy
        exact hacc y hy
      · rw [if_neg hc] at hy
        rcases List.mem_append.mp hy with h1 | h1
        · exact hacc y h1
        · rw [List.mem_singleton.mp h1]
          exact hl a (List.mem_cons_self ..)

theorem mapDedup_pred {K W : JSValue → Prop} :
    ∀ (l acc : List (JSValue × JSValue)),
      (∀ q ∈ acc, K q.1 ∧ W q.2) → (∀ q ∈ l, K q.1 ∧ W q.2) →
      ∀ q ∈ l.foldl (fun acc p => mapSetEntry acc p.1 p.2) acc, K q.1 ∧ W q.2 := by
  intro l
  induction l with
  | nil => intro acc hacc _ q hq; exact hacc q hq
  | cons p rest ih =>
      intro acc hacc hl q hq
      simp only [List.foldl_cons] at hq
      refine ih _ ?_ (fun q2 hq2 => hl q2 (List.mem_cons_of_mem _ hq2)) q hq
      intro q2 hq2
      have hp := hl p (List.mem_cons_self ..)
      unfold mapSetEntry at hq2
      by_cases hc : acc.any (fun e => jsEq e.1 p.1) = true
      · rw [if_pos hc] at hq2
        obtain ⟨e, he, heq⟩ := List.mem_map.mp hq2
        by_cases hje : jsEq e.1 p.1 = true
        · rw [if_pos hje] at heq
          rw [← heq]
          exact ⟨(hacc e he).1, hp.2⟩
        · rw [if_neg hje] at heq
          rw [← heq]
          exact hacc e he
      · rw [if_neg hc] at hq2
        rcases List.mem_append.mp hq2 with h1 | h1
        · exact hacc q2 h1
        · rw [List.mem_singleton.mp h1]
          exact hp

theorem mapPairsGo_pred {pathOf : JSValue → String} {dk dv : JSValue → DRes}
    {K W : JSValue → Prop}
    (hdk : ∀ a r, dk a = .ok r → K r) (hdv : ∀ b r, dv b = .ok r → W r) :
    ∀ {es : List (JSValue × JSValue)} {ps : List (JSValue × JSValue)},
      mapPairsGo pathOf dk dv es = .ok ps → ∀ q ∈ ps, K q.1 ∧ W q.2 := by
  intro es
  induction es with
  | nil =>
      intro ps h
      simp [mapPairsGo] at h
      subst h
      simp
  | cons e rest ih =>
      intro ps h
      obtain ⟨a, b⟩ := e
      simp only [mapPairsGo] at h
      cases hy : reException (some (pathOf a)) (do
          let a2 ← dk a
          let b2 ← dv b
          pure (a2, b2)) with
      | error err => rw [hy, except_error_bind] at h; simp at h
      | ok p =>
          rw [hy, except_ok_bind] at h
          cases hrest : mapPairsGo pathOf dk dv rest with
          | error err => rw [hrest, except_error_bind] at h; simp at h
          | ok ps2 =>
              rw [hrest, except_ok_bind] at h
              simp at h
              subst h
              intro q hq
              rcases List.mem_cons.mp hq with h1 | h1
              · subst h1
                have hinner := reException_ok.mp hy
                cases ha : dk a with
                | error err => rw [ha, except_error_bind] at hinner; cases hinner
                | ok a2 =>
                    rw [ha, except_ok_bind] at hinner
                    cases hb : dv b with
                    | error err => rw [hb, except_error_bind] at hinner; cases hinner
                    | ok b2 =>
                        rw [hb, except_ok_bind] at hinner
                        injection hinner with hinner
                        rw [← hinner]
                        exact ⟨hdk a a2 ha, hdv b b2 hb⟩
              · exact ih hrest q h1

theorem mem_contains_str {ks : List String} {k : String} (h : k ∈ ks) :
    ks.contains k = true := by
  induction ks with
  | nil => cases h
  | cons a rest ih =>
      rcases List.mem_cons.mp h with h1 | h1
      · subst h1
        simp [List.contains_cons]
      · simp only [List.contains_cons, ih h1, Bool.or_true]

theorem wfSList_mem {ms : List Sch} {m : Sch} (hw : wfSList ms = true) (hm : m ∈ ms) :
    wfS m = true := by
  induction ms with
  | nil => cases hm
  | cons s ss ih =>
      simp only [wfSList, Bool.and_eq_true] at hw
      rcases List.mem_cons.mp hm with h1 | h1
      · subst h1; exact hw.1
      · exact ih hw.2 h1

theorem wfSProps_mem {props : List (String × Sch)} {k : String} {s : Sch}
    (hw : wfSProps props = true) (hm : (k, s) ∈ props) : wfS s = true := by
  induction props with
  | nil => cases hm
  | cons p ps ih =>
      obtain ⟨k1, s1⟩ := p
      simp only [wfSProps, Bool.and_eq_true] at hw
      rcases List.mem_cons.mp hm with h1 | h1
      · injection h1 with h1a h1b; rw [h1b]; exact hw.1
      · exact ih hw.2 h1

theorem noIntersectList_mem {ms : List Sch} {m : Sch}
    (hn : noIntersectList ms = true) (hm : m ∈ ms) : noIntersect m = true := by
  induction ms with
  | nil => cases hm
  | cons s ss ih =>
      simp only [noIntersectList, Bool.and_eq_true] at hn
      rcases List.mem_cons.mp hm with h1 | h1
      · subst h1; exact hn.1
      · exact ih hn.2 h1

theorem noIntersectProps_mem {props : List (String × Sch)} {k : String} {s : Sch}
    (hn : noIntersectProps props = true) (hm : (k, s) ∈ props) : noIntersect s = true := by
  induction props with
  | nil => cases hm
  | cons p ps ih =>
      obtain ⟨k1, s1⟩ := p
      simp only [noIntersectProps, Bool.and_eq_true] at hn
      rcases List.mem_cons.mp hm with h1 | h1
      · injection h1 with h1a h1b; rw [h1b]; exact hn.1
      · exact ih hn.2 h1

theorem objCheck_of {props : List (String × Sch)} {v : JSValue}
    (hall : ∀ k s, (k, s) ∈ props → isS s (jsGet v k) = true) :
    objCheck props v = true := by
  induction props with
  | nil => rfl
  | cons p ps ih =>
      obtain ⟨k, s⟩ := p
      have hk := hall k s (List.mem_cons_self ..)
      simp only [objCheck, hk, Bool.true_and]
      exact ih (fun k2 s2 hm => hall k2 s2 (List.mem_cons_of_mem _ hm))

theorem decodeObjProps_lookup :
    ∀ {props : List (String × Sch)} {v : JSValue} {fields : List (String × JSValue)},
      decodeObjProps props v = .ok fields →
      distinctKeys (props.map Prod.fst) = true →
      ∀ k s, (k, s) ∈ props →
        ∃ y, listLookup fields k = some y ∧ decodeS s (jsGet v k) = .ok y := by
  intro props
  induction props with
  | nil =>
      intro v fields h _ k s hm
      cases hm
  | cons p rest ih =>
      intro v fields h hdk k s hm
      obtain ⟨k1, s1⟩ := p
      simp only [decodeObjProps] at h
      cases hy : reException (some k1) (decodeS s1 (jsGet v k1)) with
      | error e => rw [hy, except_error_bind] at h; simp at h
      | ok y1 =>
          rw [hy, except_ok_bind] at h
          cases hrest : decodeObjProps rest v with
          | error e => rw [hrest, except_error_bind] at h; simp at h
          | ok fs =>
              rw [hrest, except_ok_bind] at h
              simp at h
              subst h
              simp only [List.map_cons, distinctKeys, Bool.and_eq_true,
                Bool.not_eq_true'] at hdk
              rcases List.mem_cons.mp hm with h1 | h1
              · injection h1 with h1a h1b
                subst h1a
                subst h1b
                refine ⟨y1, ?_, reException_ok.mp hy⟩
                simp [listLookup]
              · have hk1 : k1 ≠ k := by
                  intro hkk
                  subst hkk
                  have : k1 ∈ rest.map Prod.fst :=
                    List.mem_map.mpr ⟨(k1, s), h1, rfl⟩
                  rw [mem_contains_str this] at hdk
                  cases hdk.1
                obtain ⟨y, hlk, hdec⟩ := ih hrest hdk.2 k s h1
                refine ⟨y, ?_, hdec⟩
                simp only [listLookup, if_neg hk1]
                exact hlk

theorem findIsMember_none_mem {ms : List Sch} {v : JSValue}
    (h : findIsMember ms v = none) : ∀ m ∈ ms, isS m v = false := by
  induction ms with
  | nil => intro m hm; cases hm
  | cons s ss ih =>
      intro m hm
      simp only [findIsMember] at h
      by_cases hs : isS s v = true
      · rw [if_pos hs] at h; cases h
      · rw [if_neg hs] at h
        rcases List.mem_cons.mp hm with h1 | h1
        · subst h1
          exact Bool.eq_false_iff.mpr hs
        · exact ih h m h1

theorem decodeUnionBrute_ok_mem {ms : List Sch} {v r : JSValue}
    (h : decodeUnionBrute ms v = .ok r) : ∃ m ∈ ms, decodeS m v = .ok r := by
  induction ms with
  | nil => cases h
  | cons s ss ih =>
      simp only [decodeUnionBrute] at h
      cases hd : decodeS s v with
      | ok r2 =>
          rw [hd] at h
          injection h with h
          subst h
          exact ⟨s, List.mem_cons_self .., hd⟩
      | error e =>
          rw [hd] at h
          obtain ⟨m, hm, hm2⟩ := ih h
          exact ⟨m, List.mem_cons_of_mem _ hm, hm2⟩

/-- Decode soundness for intersect-free, well-formed schemas, by strong
induction on the schema size. -/
theorem decode_sound_aux :
    ∀ n : ℕ, ∀ s : Sch, schSize s ≤ n → noIntersect s = true → wfS s = true →
      ∀ v r : JSValue, decodeS s v = .ok r → isS s r = true := by
  intro n
  induction n with
  | zero =>
      intro s hs _ _ v r _
      have := schSize_pos s
      omega
  | succ n ih =>
      intro s hs hni hwf v r h
      cases s with
      | any => rfl
      | unknown => rfl
      | boolean => exact decodeBoolean_is h
      | number => exact decodeNumber_is h
      | string => exact decodeString_is h
      | null => exact decodeNull_is h
      | undefined => exact decodeUndefined_is h
      | bigint => exact decodeBigInt_is h
      | date => exact decodeDate_is h
      | symbol => exact decodeSymbol_is h
      | literal lv =>
          simp only [decodeS] at h
          by_cases hl : litEq lv v = true
          · rw [if_pos hl] at h
            injection h with h
            subst h
            exact hl
          · rw [if_neg hl] at h
            cases h
      | array s1 =>
          simp only [decodeS] at h
          by_cases hp : isS (.array s1) v = true
          · rw [if_pos hp] at h
            injection h with h
            subst h
            exact hp
          · rw [if_neg hp] at h
            obtain ⟨ys, hgo, hr⟩ := except_map_ok h
            subst hr
            show arrayFindGo (fun x => isS s1 x) ys = true
            apply arrayFindGo_of_all
            intro y hy
            obtain ⟨x, _, hdec⟩ := itemsGo_ok_mem hgo y hy
            have hsz : schSize s1 ≤ n := by
              simp only [schSize] at hs
              omega
            exact ih s1 hsz hni hwf x y hdec
      | json s1 =>
          simp only [decodeS] at h
          split at h
          · have hsz : schSize s1 ≤ n := by
              simp only [schSize] at hs
              omega
            exact ih s1 hsz hni hwf _ r h
          · cases h
      | nullable s1 =>
          simp only [decodeS] at h
          by_cases hnl : isNullV v = true
          · rw [if_pos hnl] at h
            injection h with h
            subst h
            rfl
          · rw [if_neg hnl] at h
            have hsz : schSize s1 ≤ n := by
              simp only [schSize] at hs
              omega
            have his := ih s1 hsz hni hwf v r h
            show (isNullV r || isS s1 r) = true
            rw [his, Bool.or_true]
      | optional s1 =>
          simp only [decodeS] at h
          by_cases hnl : isUndefinedV v = true
          · rw [if_pos hnl] at h
            injection h with h
            subst h
            rfl
          · rw [if_neg hnl] at h
            have hsz : schSize s1 ≤ n := by
              simp only [schSize] at hs
              omega
            have his := ih s1 hsz hni hwf v r h
            show (isUndefinedV r || isS s1 r) = true
            rw [his, Bool.or_true]
      | map k1 vs1 =>
          simp only [decodeS] at h
          by_cases hp : isS (.map k1 vs1) v = true
          · rw [if_pos hp] at h
            injection h with h
            subst h
            exact hp
          · rw [if_neg hp] at h
            split at h
            · cases h
            · obtain ⟨ps, hpgo, hr⟩ := except_map_ok h
              subst hr
              show mapEntriesGoIs (keyIs k1) (fun b => isS vs1 b) (mapDedup ps) = true
              apply mapEntriesGoIs_of_all
              intro q hq
              have hsz : schSize vs1 ≤ n := by
                simp only [schSize] at hs
                omega
              unfold mapDedup at hq
              exact mapDedup_pred (K := fun x => keyIs k1 x = true)
                (W := fun y => isS vs1 y = true) ps []
                (by intro q2 hq2; cases hq2)
                (mapPairsGo_pred (fun a r2 ha => keyDecode_is ha)
                  (fun b r2 hb => ih vs1 hsz hni hwf b r2 hb) hpgo)
                q hq
      | set s1 =>
          simp only [decodeS] at h
          by_cases hp : isS (.set s1) v = true
          · rw [if_pos hp] at h
            injection h with h
            subst h
            exact hp
          · rw [if_neg hp] at h
            split at h
            · obtain ⟨ys, hgo, hr⟩ := except_map_ok h
              subst hr
              show arrayFindGo (fun x => isS s1 x) (setDedup ys) = true
              apply arrayFindGo_of_all
              intro y hy
              have hsz : schSize s1 ≤ n := by
                simp only [schSize] at hs
                omega
              unfold setDedup at hy
              refine setDedup_pred (P := fun y => isS s1 y = true) ys []
                (by intro x hx; cases hx) ?_ y hy
              intro x hx
              obtain ⟨x2, _, hdec⟩ := plainItemsGo_ok_mem hgo x hx
              exact ih s1 hsz hni hwf x2 x hdec
            · cases h
      | tuple items =>
          simp only [decodeS] at h
          by_cases hp : isS (.tuple items) v = true
          · rw [if_pos hp] at h
            injection h with h
            subst h
            exact hp
          · rw [if_neg hp] at h
            split at h
            · obtain ⟨ys, hgo, hr⟩ := except_map_ok h
              subst hr
              show tupleCheck items ys 0 = true
              obtain ⟨_, hpt⟩ := decodeTupleItems_ok_pointwise hgo
              apply tupleCheck_of_pointwise
              intro j m hj
              obtain ⟨y, hyj, hdec⟩ := hpt j m hj
              have hg : ys.getD (0 + j) vUndefined = y := by
                rw [Nat.zero_add]
                exact getD_of_get? ys j y vUndefined hyj
              rw [hg]
              have hm : m ∈ items := List.get?_mem hj
              have hsz : schSize m ≤ n := by
                have h1 := schSizeList_le_of_mem hm
                simp only [schSize] at hs
                omega
              exact ih m hsz (noIntersectList_mem hni hm) (wfSList_mem hwf hm) _ y hdec
            · cases h
      | object props =>
          simp only [decodeS] at h
          by_cases hp : isS (.object props) v = true
          · rw [if_pos hp] at h
            injection h with h
            subst h
            exact hp
          · rw [if_neg hp] at h
            by_cases ht : (typeofObject v && !isNullV v) = true
            · rw [if_pos ht] at h
              obtain ⟨fields, hgo, hr⟩ := except_map_ok h
              subst hr
              show objCheck props (vObj fields) = true
              have hwfo : distinctKeys (props.map Prod.fst) = true ∧ wfSProps props = true := by
                have h2 := hwf
                simp only [wfS, Bool.and_eq_true] at h2
                exact h2
              apply objCheck_of
              intro k s1 hm
              obtain ⟨y, hlk, hdec⟩ := decodeObjProps_lookup hgo hwfo.1 k s1 hm
              have hjg : jsGet (vObj fields) k = y := by
                show (listLookup fields k).getD vUndefined = y
                rw [hlk]
                rfl
              rw [hjg]
              have hsz : schSize s1 ≤ n := by
                have h1 := schSizeProps_le_of_mem hm
                simp only [schSize] at hs
                simp only at h1
                omega
              exact ih s1 hsz (noIntersectProps_mem hni hm) (wfSProps_mem hwfo.2 hm) _ y hdec
            · rw [if_neg ht] at h
              cases h
      | union ms =>
          simp only [decodeS] at h
          by_cases hp : isS (.union ms) v = true
          · rw [if_pos hp] at h
            injection h with h
            subst h
            exact hp
          · have hp2 : isS (.union ms) v = false := Bool.eq_false_iff.mpr hp
            rw [if_neg hp] at h
            have hfm : findIsMember ms v = none := by
              have h3 : (findIsMember ms v).isSome = false := hp2
              cases hq : findIsMember ms v with
              | none => rfl
              | some m => rw [hq] at h3; cases h3
            have hall := findIsMember_none_mem hfm
            split at h
            · rename_i r2 heq
              rw [decodeUnionFirstPass_none_of_all hall] at heq
              cases heq
            · obtain ⟨m, hm, hdec⟩ := decodeUnionBrute_ok_mem h
              have hsz : schSize m ≤ n := by
                have h1 := schSizeList_le_of_mem hm
                simp only [schSize] at hs
                omega
              have his := ih m hsz (noIntersectList_mem hni hm) (wfSList_mem hwf hm) v r hdec
              show (findIsMember ms r).isSome = true
              exact findIsMember_isSome_of_mem hm his
      | intersect ms =>
          exact Bool.noConfusion hni

/-- C1 (counterexample): decode can return a value the schema's own `is`
rejects.  `intersect(boolean(), boolean()).decode(null)` succeeds with `\x7b\x7d`
(each member decodes `null` to `false`, no member result is object-typed, so
the fold over the empty list is the empty object), yet the schema's `is`
rejects `\x7b\x7d`. -/
theorem c1_counterexample_intersect_escapes :
    decodeS (.intersect [.boolean, .boolean]) vNull = .ok (vObj [])
    ∧ isS (.intersect [.boolean, .boolean]) (vObj []) = false :=
  ⟨rfl, rfl⟩

/-- C1 as amended: for every schema from the factory surface that contains no
intersect combinator — with every object schema's property keys distinct, as
a JavaScript record literal guarantees — if `decode` returns without throwing
then the schema's own `is` accepts the result. -/
theorem c1_decode_sound (s : Sch) (hni : noIntersect s = true) (hwf : wfS s = true)
    (v r : JSValue) (h : decodeS s v = .ok r) : isS s r = true :=
  decode_sound_aux (schSize s) s le_rfl hni hwf v r h

/-- C1 witness: the amended theorem applied to `array(string())` on input
`5` — decode coerces to `["5"]`, which the schema's `is` accepts. -/
theorem c1_decode_sound_witness :
    noIntersect (.array .string) = true ∧ wfS (.array .string) = true
    ∧ isS (.array .string) (vArr [vStr "5"]) = true :=
  ⟨rfl, rfl, c1_decode_sound (.array .string) rfl rfl (vNum (val 5)) (vArr [vStr "5"]) rfl⟩

end Pertype
